import Mathlib

/-!
# hk::sail symbol database: descriptor cache and lookup

A shallow embedding of `hakkun/include/hk/sail/detail.h`:

* `Symbol`, `SymbolEntry` and `SymbolEntry.apply`, the per-descriptor
  resolution cache wrapped around the six resolution strategies;
* `lookupSymbolByHash`, the search of the hash-sorted table `gSymbols`;
* `lookupSymbolFromDb`, the lookup entry point;
* `SymbolVersioned.isVersion` and `SymbolImmediate.isVersionValid`, the version
  gate;
* the byte layout of the descriptor structs and `cSymbolEntrySize`.

Machine words (`u32`, `u64`, `ptr`, `size`) are natural numbers; signed
indices are integers.  The bodies of the six strategy `apply` functions, of
`isVersion`, of `util::binarySearch`, of `util::max`, of `util::hashMurmur` and
of `HK_ABORT_UNLESS` live in files that are not part of the header.  The strategies and the hash are
parameters of the model; the search, the version test, the maximum and the abort
check are modelled from the specification and marked as such.
-/

namespace hk.sail

namespace detail

/-! ## Data model -/

/-- Strategy tag of a descriptor (`Symbol::Type`). -/
inductive SymbolType where
  | Type_Immediate
  | Type_Dynamic
  | Type_DataBlock
  | Type_ReadADRPGlobal
  | Type_Arithmetic
  | Type_MultipleCandidate
  deriving DecidableEq

/-- Common header of every descriptor (`struct Symbol`).  `destNameMurmur` is a
`u32`, `symbolPtrCache` a `ptr`; only `symbolPtrCache` is not `const`. -/
structure Symbol where
  destNameMurmur : Nat
  type : SymbolType
  symbolPtrCache : Nat
  deriving DecidableEq

/-- Sentinel test `Symbol::isCacheDisabled`. -/
def Symbol.isCacheDisabled (self : Symbol) : Bool :=
  self.symbolPtrCache == 1

/-- Members of the anonymous union of `SymbolEntry` that carry an `apply`
function. -/
inductive Member where
  | mDataBlock
  | mDynamic
  | mImmediate
  | mReadADRPGlobal
  | mArithmetic
  | mMultiple
  deriving DecidableEq

/-- One slot of the table (`class SymbolEntry`): the header `mBase` shared by
all union members, and the bytes of the strategy-specific payload that follow
it.  The payload is `const` and is read by the strategies only. -/
structure SymbolEntry where
  mBase : Symbol
  payload : List Nat
  deriving DecidableEq

/-- Accessor `SymbolEntry::getType`. -/
def SymbolEntry.getType (self : SymbolEntry) : SymbolType :=
  self.mBase.type

/-- Accessor `SymbolEntry::getNameMurmur32`. -/
def SymbolEntry.getNameMurmur32 (self : SymbolEntry) : Nat :=
  self.mBase.destNameMurmur

/-- Lookup key `const T* destSymbol` of the two instantiations of
`_HK_SAIL_PRECALC_TEMPLATE`: a symbol name (`IsPreCalc = false`, `T = char`) or
a precomputed hash (`IsPreCalc = true`, `T = u32`). -/
inductive DestSymbol where
  | name (s : String)
  | murmur (h : Nat)
  deriving DecidableEq

/-- Record of one strategy invocation: the union member whose `apply` ran, the
three arguments it received (`*out` as it was on entry), and what `*out` held
when it returned (`none` when it aborted the process instead). -/
structure Invocation where
  member : Member
  abort : Bool
  out : Nat
  destSymbol : DestSymbol
  result : Option Nat
  deriving DecidableEq

/-- The six strategy functions `SymbolXxx::apply(bool abort, ptr* out, const T*
destSymbol)`, declared in the header and defined elsewhere.  A strategy reads
the descriptor it is called on and the outside world `W` (module memory, the
version table, other descriptors), and either aborts the process (`none`) or
returns with a value in `*out` and a new outside world.  A strategy that
returns without writing `*out` hands back the value it was given.  The cache
field of the descriptor is written by `SymbolEntry::apply` only. -/
abbrev Strategies (W : Type) :=
  Member → Bool → Nat → DestSymbol → SymbolEntry → W → Option (Nat × W)

/-- Result of one `SymbolEntry::apply` call: the strategy invocations it made
and, unless the process was aborted, the final `*out`, the descriptor and the
outside world. -/
structure ApplyResult (W : Type) where
  calls : List Invocation
  outcome : Option (Nat × SymbolEntry × W)
  deriving DecidableEq

/-- Store into the cache field, `mBase.symbolPtrCache = v`. -/
def SymbolEntry.setCache (self : SymbolEntry) (v : Nat) : SymbolEntry :=
  { self with mBase := { self.mBase with symbolPtrCache := v } }

/-- The `switch (mBase.type)` of `SymbolEntry::apply`: the union member whose
`apply` each case calls. -/
def SymbolEntry.switchMember (self : SymbolEntry) : Member :=
  match self.mBase.type with
  | SymbolType.Type_DataBlock => Member.mDataBlock
  | SymbolType.Type_Dynamic => Member.mDynamic
  | SymbolType.Type_Immediate => Member.mImmediate
  | SymbolType.Type_ReadADRPGlobal => Member.mReadADRPGlobal
  | SymbolType.Type_Arithmetic => Member.mArithmetic
  | SymbolType.Type_MultipleCandidate => Member.mMultiple

/-- The function `SymbolEntry::apply(bool abort, ptr* out, const T* destSymbol)`.
`out` is the value of `*out` on entry. -/
def SymbolEntry.apply {W : Type} (S : Strategies W) (abort : Bool) (out : Nat)
    (destSymbol : DestSymbol) (self : SymbolEntry) (w : W) : ApplyResult W :=
  if !self.mBase.isCacheDisabled && self.mBase.symbolPtrCache != 0 then
    ⟨[], some (self.mBase.symbolPtrCache, self, w)⟩
  else
    match S self.switchMember abort out destSymbol self w with
    | none => ⟨[⟨self.switchMember, abort, out, destSymbol, none⟩], none⟩
    | some (out1, w1) =>
      ⟨[⟨self.switchMember, abort, out, destSymbol, some out1⟩],
        some (out1, if !self.mBase.isCacheDisabled then self.setCache out1 else self, w1)⟩

/-- The union member a tag names: `Type_Xxx` names `mXxx` (`mMultiple` for
`Type_MultipleCandidate`). -/
def namedMember : SymbolType → Member
  | SymbolType.Type_Immediate => Member.mImmediate
  | SymbolType.Type_Dynamic => Member.mDynamic
  | SymbolType.Type_DataBlock => Member.mDataBlock
  | SymbolType.Type_ReadADRPGlobal => Member.mReadADRPGlobal
  | SymbolType.Type_Arithmetic => Member.mArithmetic
  | SymbolType.Type_MultipleCandidate => Member.mMultiple

/-- Arguments of one `SymbolEntry::apply` call: the abort flag, the value of
`*out` on entry and the key. -/
structure Call where
  abort : Bool
  out : Nat
  destSymbol : DestSymbol
  deriving DecidableEq

/-- Observation of a run of consecutive `apply` calls on one descriptor:
`calls` lists every strategy invocation in order, `outs` the value of `*out`
after each call that returned, `caches` the cache field after each call that
returned, and `final` the descriptor and outside world at the end (`none` when
a strategy aborted the process, which ends the run). -/
structure SeqResult (W : Type) where
  calls : List Invocation
  outs : List Nat
  caches : List Nat
  final : Option (SymbolEntry × W)
  deriving DecidableEq

/-- Consecutive `SymbolEntry::apply` calls on one descriptor, each starting from
the descriptor and outside world the previous call left behind. -/
def applySeq {W : Type} (S : Strategies W) : List Call → SymbolEntry → W → SeqResult W
  | [], e, w => ⟨[], [], [], some (e, w)⟩
  | c :: cs, e, w =>
    match (e.apply S c.abort c.out c.destSymbol w).outcome with
    | none => ⟨(e.apply S c.abort c.out c.destSymbol w).calls, [], [], none⟩
    | some (o, e1, w1) =>
      ⟨(e.apply S c.abort c.out c.destSymbol w).calls ++ (applySeq S cs e1 w1).calls,
        o :: (applySeq S cs e1 w1).outs,
        e1.mBase.symbolPtrCache :: (applySeq S cs e1 w1).caches,
        (applySeq S cs e1 w1).final⟩

/-- Number of positions at which a list of successive cache values changes. -/
def cacheChanges : List Nat → Nat
  | a :: b :: rest => (if a = b then 0 else 1) + cacheChanges (b :: rest)
  | _ => 0

end detail

/-! ## Integer conversions -/

/-- Conversion of an unsigned value to `s32` (low 32 bits, two's complement). -/
def toS32 (x : Nat) : Int :=
  if x % 2 ^ 32 < 2 ^ 31 then (x % 2 ^ 32 : Nat) else ((x % 2 ^ 32 : Nat) : Int) - 2 ^ 32

/-- Conversion of a signed index to `u32`. -/
def toU32 (i : Int) : Nat :=
  (i % 2 ^ 32).toNat

end hk.sail

namespace hk.util

/-- Modelled from the spec: the loop of `util::binarySearch` (see
`binarySearch`), run with an iteration budget; `none` when the budget is used
up before the loop ends. -/
def binarySearchLoop (getFunc : Nat → Nat) (searchValue : Nat) : Nat → Int → Int → Option Int
  | 0, _, _ => none
  | fuel + 1, low, high =>
    if low ≤ high then
      if getFunc (hk.sail.toU32 ((low + high) / 2)) = searchValue then
        some ((low + high) / 2)
      else if getFunc (hk.sail.toU32 ((low + high) / 2)) < searchValue then
        binarySearchLoop getFunc searchValue fuel ((low + high) / 2 + 1) high
      else
        binarySearchLoop getFunc searchValue fuel low ((low + high) / 2 - 1)
    else
      some (-1)

/-- Modelled from the spec: `util::binarySearch(getFunc, low, high, searchValue)`
of `hk/util/Algorithm.h`, which is not part of the header; only its call in
`lookupSymbolByHash` is.  The spec describes a binary search over the sorted
array comparing `destNameHash`, returning the matching descriptor or "not
found"; the call site fixes the shape: a getter taking a `u32` index, inclusive
signed bounds `low` and `high`, and the index of a match or `-1` as result.
Index arithmetic inside the search is exact.  The iteration budget
`high + 1 - low` (plus one for the final test) is never used up, see
`binarySearchLoop_isSome`. -/
def binarySearch (getFunc : Nat → Nat) (low high : Int) (searchValue : Nat) : Int :=
  (binarySearchLoop getFunc searchValue ((high + 1 - low).toNat + 1) low high).getD (-1)

end hk.util

namespace hk.sail

namespace detail

/-- The getter lambda of `lookupSymbolByHash`,
`gSymbols[idx].getNameMurmur32()`.  A read outside the table is undefined in the
source and yields `0` here; the search never performs one
(`binarySearch_congr_table`). -/
def getNameMurmur32At (gSymbols : List SymbolEntry) (idx : Nat) : Nat :=
  match gSymbols[idx]? with
  | some e => e.getNameMurmur32
  | none => 0

/-- The function `lookupSymbolByHash(u32 nameMurmur)`.  `gNumSymbols` is the length of
`gSymbols`; `gNumSymbols - 1` is computed on the unsigned 64-bit `size` and
converted to the signed index type of the search.  The returned pointer
`&gSymbols[idx]` is the index `idx`, `nullptr` is `none`. -/
def lookupSymbolByHash (gSymbols : List SymbolEntry) (nameMurmur : Nat) : Option Nat :=
  if hk.util.binarySearch (getNameMurmur32At gSymbols) 0
      (toS32 ((gSymbols.length + 2 ^ 64 - 1) % 2 ^ 64)) nameMurmur ≠ -1 then
    some (hk.util.binarySearch (getNameMurmur32At gSymbols) 0
      (toS32 ((gSymbols.length + 2 ^ 64 - 1) % 2 ^ 64)) nameMurmur).toNat
  else
    none

/-- Reference search: the index of the first entry of the table whose hash is
`nameMurmur`, found by scanning the table from position `i` on. -/
def linearScanFrom (nameMurmur : Nat) : List SymbolEntry → Nat → Option Nat
  | [], _ => none
  | e :: es, i =>
    if e.getNameMurmur32 = nameMurmur then some i else linearScanFrom nameMurmur es (i + 1)

/-- Reference search over the whole table. -/
def linearScan (gSymbols : List SymbolEntry) (nameMurmur : Nat) : Option Nat :=
  linearScanFrom nameMurmur gSymbols 0

end detail

/-! ## Lookup entry point -/

/-- Ways a lookup ends without returning an address. -/
inductive Diag where
  /-- Diagnostic `UnresolvedSymbol` of `HK_ABORT_UNLESS`, carrying the key. -/
  | unresolvedSymbol (symbol : detail.DestSymbol)
  /-- Process abort raised inside a strategy. -/
  | inStrategy
  /-- Dereference of an entry pointer outside `gSymbols` (undefined in the
  source). -/
  | outsideTable
  deriving DecidableEq

/-- How a lookup ends. -/
inductive Outcome (α : Type) where
  | aborted (diag : Diag)
  | returned (a : α)
  deriving DecidableEq

/-- Result of `lookupSymbolFromDb`: the strategy invocations made and either the
abort or the returned address with the table and outside world it leaves. -/
structure LookupResult (W : Type) where
  calls : List detail.Invocation
  outcome : Outcome (Nat × List detail.SymbolEntry × W)
  deriving DecidableEq

/-- Modelled from the spec: the macro `HK_ABORT_UNLESS(cond, fmt, ...)` of
`hk/diag/diag.h`, which is not part of the header: the process is aborted with
the diagnostic unless `cond` holds.  `some diag` is the abort. -/
def HK_ABORT_UNLESS (cond : Bool) (diag : Diag) : Option Diag :=
  if cond then none else some diag

/-- The hash `destHash` computed at the head of `lookupSymbolFromDb`: the key
itself when it is a precomputed hash (`IsPreCalc`), `util::hashMurmur` of the
name otherwise. -/
def destHash (hashMurmur : String → Nat) (symbol : detail.DestSymbol) : Nat :=
  match symbol with
  | detail.DestSymbol.murmur h => h
  | detail.DestSymbol.name s => hashMurmur s

/-- The function `lookupSymbolFromDb(const T* symbol, bool abort)`.  `hashMurmur` is
`util::hashMurmur`, defined outside the header.  Nested lookups a strategy may
make are part of the strategy; their effect on other descriptors of the table
is not recorded in the table returned here. -/
def lookupSymbolFromDb {W : Type} (hashMurmur : String → Nat) (S : detail.Strategies W)
    (gSymbols : List detail.SymbolEntry) (w : W) (symbol : detail.DestSymbol)
    (abort : Bool) : LookupResult W :=
  let entry := detail.lookupSymbolByHash gSymbols (destHash hashMurmur symbol)
  match (if abort then HK_ABORT_UNLESS (entry != none) (Diag.unresolvedSymbol symbol)
      else none) with
  | some diag => ⟨[], Outcome.aborted diag⟩
  | none =>
    match entry with
    | none => ⟨[], Outcome.returned (0, gSymbols, w)⟩
    | some idx =>
      match gSymbols[idx]? with
      | none => ⟨[], Outcome.aborted Diag.outsideTable⟩
      | some e =>
        match (e.apply S true 0 symbol w).outcome with
        | none => ⟨(e.apply S true 0 symbol w).calls, Outcome.aborted Diag.inStrategy⟩
        | some (out, e1, w1) =>
          ⟨(e.apply S true 0 symbol w).calls, Outcome.returned (out, gSymbols.set idx e1, w1)⟩

end hk.sail

/-! ## Sample data used to instantiate the theorems -/

namespace hk.sail.detail

/-- Descriptor with hash `h`, tag `t` and cache value `c`, with an empty payload. -/
def mkEntry (h : Nat) (t : SymbolType) (c : Nat) : SymbolEntry :=
  ⟨⟨h, t, c⟩, []⟩

/-- Strategies that all resolve to the address `a`, in a world without state. -/
def constStrategies (a : Nat) : Strategies Unit :=
  fun _ _ _ _ _ w => some (a, w)

/-- Strategies over a counter: each invocation hands back the counter plus `base`
and increments the counter. -/
def countingStrategies (base : Nat) : Strategies Nat :=
  fun _ _ _ _ _ w => some (w + base, w + 1)

/-- Strategies that cannot resolve anything and follow the abort flag: with
`abort` set they abort the process, otherwise they return without writing
`*out`. -/
def failingStrategies : Strategies Unit :=
  fun _ abort out _ _ w => if abort then none else some (out, w)

/-- Strategies that never write `*out` and never abort, whatever the flag. -/
def silentStrategies : Strategies Unit :=
  fun _ _ out _ _ w => some (out, w)

/-- Strategies over a counter that leave `*out` untouched on their first
invocation and resolve to `20480` afterwards. -/
def lateStrategies : Strategies Nat :=
  fun _ _ out _ _ w => if w = 0 then some (out, 1) else some (20480, w + 1)

/-- Sample hash of names: the length of the name. -/
def sampleHash (s : String) : Nat :=
  s.length

/-- Sample table of three descriptors with hashes 3, 7 and 12; the second one
caches the address `32768`. -/
def sampleTable : List SymbolEntry :=
  [mkEntry 3 SymbolType.Type_Dynamic 0, mkEntry 7 SymbolType.Type_Immediate 32768,
    mkEntry 12 SymbolType.Type_Arithmetic 0]

/-- Admissible step of the cache field between two consecutive calls: no change,
or from Unresolved (0) to Resolved (an address above 1). -/
def cacheStep (a b : Nat) : Prop :=
  a = b ∨ (a = 0 ∧ 1 < b)

end hk.sail.detail

/-! ## Version gating -/

namespace hk.sail.detail

/-- Header refinement `struct SymbolVersioned : Symbol`: the header followed by
the `u64` bitset of the versions the descriptor applies to. -/
structure SymbolVersioned extends Symbol where
  versionsBitset : Nat
  deriving DecidableEq

/-- Modelled from the spec: `SymbolVersioned::isVersion(u32 moduleIdx)`, declared
in the header and defined in a file that is not part of it.  The spec: it tests
the bit numbered by the active version ordinal of the module, looked up in the
version table `gVersions`, against the 64-bit bitset of the descriptor, and is
true iff that bit is set.  `gVersions` maps a module index to the ordinal. -/
def SymbolVersioned.isVersion (gVersions : Nat → Nat) (self : SymbolVersioned)
    (moduleIdx : Nat) : Bool :=
  Nat.testBit self.versionsBitset (gVersions moduleIdx)

/-- Descriptor shape `struct SymbolImmediate : SymbolVersioned`. -/
structure SymbolImmediate extends SymbolVersioned where
  moduleIdx : Nat
  offsetIntoModule : Nat
  deriving DecidableEq

/-- The function `SymbolImmediate::isVersionValid`, `isVersion(moduleIdx)`. -/
def SymbolImmediate.isVersionValid (gVersions : Nat → Nat) (self : SymbolImmediate) : Bool :=
  self.toSymbolVersioned.isVersion gVersions self.moduleIdx

end hk.sail.detail

/-! ## Binary layout of the descriptor structs -/

namespace hk.util

/-- Modelled from the spec: `util::max` of `hk/util/Math.h`, which is not part of
the header: the maximum of its arguments. -/
def max (values : List Nat) : Nat :=
  values.foldl Nat.max 0

end hk.util

namespace hk.sail.detail.layout

/-- Types of the data members of the descriptor structs.  `enumType` is the
unscoped enum `Symbol::Type`. -/
inductive CType where
  | u8
  | u32
  | s32
  | u64
  | ptr
  | ptrdiff_t
  | enumType
  deriving DecidableEq

/-- Size in bytes of a member type under the 64-bit layout rules: fixed-width
integers have their width, `ptr` and `ptrdiff_t` are 8 bytes, the enum is an
`int`. -/
def CType.size : CType → Nat
  | CType.u8 => 1
  | CType.u32 => 4
  | CType.s32 => 4
  | CType.u64 => 8
  | CType.ptr => 8
  | CType.ptrdiff_t => 8
  | CType.enumType => 4

/-- Natural alignment: every scalar is aligned to its size. -/
def CType.align (t : CType) : Nat :=
  t.size

/-- Declaration of one data member. -/
structure Field where
  name : String
  type : CType
  deriving DecidableEq

/-- Computed layout of a struct: `sizeof`, `alignof`, and for every data member,
inherited ones included, its name, offset and size. -/
structure Layout where
  size : Nat
  align : Nat
  members : List (String × Nat × Nat)
  deriving DecidableEq

/-- Smallest multiple of `alignment` that is not below `offset`. -/
def alignUp (offset alignment : Nat) : Nat :=
  (offset + alignment - 1) / alignment * alignment

/-- Placement of data members in declaration order, each at the next offset
that satisfies its alignment.  Returns the end of the last member, the largest
alignment seen and the members placed. -/
def placeFields : List Field → Nat → Nat → List (String × Nat × Nat) →
    Nat × Nat × List (String × Nat × Nat)
  | [], cursor, al, acc => (cursor, al, acc)
  | f :: fs, cursor, al, acc =>
    placeFields fs (alignUp cursor f.type.align + f.type.size) (Nat.max al f.type.align)
      (acc ++ [(f.name, alignUp cursor f.type.align, f.type.size)])

/-- Layout of a struct with an optional base struct: the base subobject comes
first at offset 0, the own members follow, and the size is rounded up to the
alignment. -/
def layoutStruct (base : Option Layout) (fields : List Field) : Layout :=
  match base with
  | none =>
    ⟨alignUp (placeFields fields 0 1 []).1 (placeFields fields 0 1 []).2.1,
      (placeFields fields 0 1 []).2.1, (placeFields fields 0 1 []).2.2⟩
  | some b =>
    ⟨alignUp (placeFields fields b.size b.align b.members).1
        (placeFields fields b.size b.align b.members).2.1,
      (placeFields fields b.size b.align b.members).2.1,
      (placeFields fields b.size b.align b.members).2.2⟩

/-- Offset of a member, `__builtin_offsetof(S, name)`. -/
def offsetOf (l : Layout) (name : String) : Option Nat :=
  (l.members.find? (fun m => m.1 == name)).map (fun m => m.2.1)

/-- Size of a member, `sizeof(S::name)`. -/
def sizeOfMember (l : Layout) (name : String) : Option Nat :=
  (l.members.find? (fun m => m.1 == name)).map (fun m => m.2.2)

/-- Layout of `struct Symbol`. -/
def Symbol : Layout :=
  layoutStruct none
    [⟨"destNameMurmur", CType.u32⟩, ⟨"type", CType.enumType⟩, ⟨"symbolPtrCache", CType.ptr⟩]

/-- Layout of `struct SymbolVersioned : Symbol`. -/
def SymbolVersioned : Layout :=
  layoutStruct (some Symbol) [⟨"versionsBitset", CType.u64⟩]

/-- Layout of `struct SymbolDataBlock : Symbol`. -/
def SymbolDataBlock : Layout :=
  layoutStruct (some Symbol)
    [⟨"offsetToSearchFunction", CType.ptrdiff_t⟩, ⟨"moduleIdx", CType.u8⟩,
      ⟨"versionBoundaryType", CType.u8⟩, ⟨"versionBoundary", CType.u8⟩,
      ⟨"sectionLimit", CType.u8⟩, ⟨"offsetToFoundBlock", CType.s32⟩]

/-- Layout of `struct SymbolDynamic : Symbol`. -/
def SymbolDynamic : Layout :=
  layoutStruct (some Symbol)
    [⟨"lookupNameRtldHash", CType.u64⟩, ⟨"lookupNameMurmur", CType.u32⟩,
      ⟨"lookupNameDjb2", CType.u32⟩]

/-- Layout of `struct SymbolImmediate : SymbolVersioned`. -/
def SymbolImmediate : Layout :=
  layoutStruct (some SymbolVersioned)
    [⟨"moduleIdx", CType.u32⟩, ⟨"offsetIntoModule", CType.u32⟩]

/-- Layout of `struct SymbolReadADRPGlobal : SymbolVersioned`. -/
def SymbolReadADRPGlobal : Layout :=
  layoutStruct (some SymbolVersioned)
    [⟨"srcNameMurmur", CType.u32⟩, ⟨"offsetToLoInstr", CType.s32⟩]

/-- Layout of `struct SymbolArithmetic : SymbolVersioned`. -/
def SymbolArithmetic : Layout :=
  layoutStruct (some SymbolVersioned) [⟨"srcNameMurmur", CType.u32⟩, ⟨"addend", CType.s32⟩]

/-- Layout of `struct SymbolMultipleCandidate : Symbol`. -/
def SymbolMultipleCandidate : Layout :=
  layoutStruct (some Symbol) [⟨"offsetToCandidates", CType.u64⟩, ⟨"numCandidates", CType.u64⟩]

/-- The six variant structs, in the order of the `util::max` call. -/
def variants : List Layout :=
  [SymbolDataBlock, SymbolDynamic, SymbolImmediate, SymbolReadADRPGlobal, SymbolArithmetic,
    SymbolMultipleCandidate]

/-- The three variants derived from `SymbolVersioned`. -/
def versionedVariants : List Layout :=
  [SymbolImmediate, SymbolReadADRPGlobal, SymbolArithmetic]

/-- The constant `cSymbolEntrySize`: `util::max` of the `sizeof` of the six
variants. -/
def cSymbolEntrySize : Nat :=
  hk.util.max (variants.map (fun l => l.size))

end hk.sail.detail.layout

/-! ## Runs of consecutive lookups -/

namespace hk.sail

/-- Consecutive `lookupSymbolFromDb` calls, each starting from the table and
outside world the previous call left behind.  The result lists the table after
every call that returned; an abort ends the run. -/
def lookupSeq {W : Type} (hashMurmur : String → Nat) (S : detail.Strategies W) :
    List (detail.DestSymbol × Bool) → List detail.SymbolEntry → W →
      List (List detail.SymbolEntry)
  | [], _, _ => []
  | q :: rest, gSymbols, w =>
    match (lookupSymbolFromDb hashMurmur S gSymbols w q.1 q.2).outcome with
    | Outcome.aborted _ => []
    | Outcome.returned r => r.2.1 :: lookupSeq hashMurmur S rest r.2.1 r.2.2

/-- The part of `lookupSymbolFromDb` after the null checks, `ptr out = 0;
entry->apply(true, &out, symbol); return out;`, for the entry `e` found at index
`idx`. -/
def resolveFound {W : Type} (S : detail.Strategies W) (gSymbols : List detail.SymbolEntry)
    (w : W) (symbol : detail.DestSymbol) (idx : Nat) (e : detail.SymbolEntry) : LookupResult W :=
  match (e.apply S true 0 symbol w).outcome with
  | none => ⟨(e.apply S true 0 symbol w).calls, Outcome.aborted Diag.inStrategy⟩
  | some (out, e1, w1) =>
    ⟨(e.apply S true 0 symbol w).calls, Outcome.returned (out, gSymbols.set idx e1, w1)⟩

end hk.sail

/-! ## One call of `SymbolEntry::apply` -/

namespace hk.sail.detail

theorem switchMember_eq (e : SymbolEntry) : e.switchMember = namedMember e.mBase.type := by
  cases e with
  | mk b p =>
    cases b with
    | mk h t c => cases t <;> rfl

theorem apply_hit {W : Type} (S : Strategies W) (abort : Bool) (out : Nat)
    (destSymbol : DestSymbol) (e : SymbolEntry) (w : W)
    (h0 : e.mBase.symbolPtrCache ≠ 0) (h1 : e.mBase.symbolPtrCache ≠ 1) :
    e.apply S abort out destSymbol w = ⟨[], some (e.mBase.symbolPtrCache, e, w)⟩ := by
  simp [SymbolEntry.apply, Symbol.isCacheDisabled, h0, h1]

theorem apply_miss_some {W : Type} (S : Strategies W) (abort : Bool) (out : Nat)
    (destSymbol : DestSymbol) (e : SymbolEntry) (w : W) (a : Nat) (w1 : W)
    (h0 : e.mBase.symbolPtrCache = 0)
    (hS : S e.switchMember abort out destSymbol e w = some (a, w1)) :
    e.apply S abort out destSymbol w =
      ⟨[⟨e.switchMember, abort, out, destSymbol, some a⟩], some (a, e.setCache a, w1)⟩ := by
  simp [SymbolEntry.apply, Symbol.isCacheDisabled, h0, hS]

theorem apply_disabled_some {W : Type} (S : Strategies W) (abort : Bool) (out : Nat)
    (destSymbol : DestSymbol) (e : SymbolEntry) (w : W) (a : Nat) (w1 : W)
    (h1 : e.mBase.symbolPtrCache = 1)
    (hS : S e.switchMember abort out destSymbol e w = some (a, w1)) :
    e.apply S abort out destSymbol w =
      ⟨[⟨e.switchMember, abort, out, destSymbol, some a⟩], some (a, e, w1)⟩ := by
  simp [SymbolEntry.apply, Symbol.isCacheDisabled, h1, hS]

theorem apply_none {W : Type} (S : Strategies W) (abort : Bool) (out : Nat)
    (destSymbol : DestSymbol) (e : SymbolEntry) (w : W)
    (hc : e.mBase.symbolPtrCache = 0 ∨ e.mBase.symbolPtrCache = 1)
    (hS : S e.switchMember abort out destSymbol e w = none) :
    e.apply S abort out destSymbol w =
      ⟨[⟨e.switchMember, abort, out, destSymbol, none⟩], none⟩ := by
  rcases hc with hc | hc <;> simp [SymbolEntry.apply, Symbol.isCacheDisabled, hc, hS]

/-- C1 (cache miss).  On a descriptor whose cache field is 0, `apply` makes
exactly one strategy invocation, of the union member named by the tag and with
the caller's arguments; when that strategy returns the address `a`, `apply`
returns `a` in `*out` and leaves a descriptor whose cache field is `a` and
whose other fields are untouched; when the strategy aborts, so does `apply`. -/
theorem C1_apply_cache_miss {W : Type} (S : Strategies W) (abort : Bool) (out : Nat)
    (destSymbol : DestSymbol) (e : SymbolEntry) (w : W)
    (h0 : e.mBase.symbolPtrCache = 0) :
    (e.apply S abort out destSymbol w).calls =
        [⟨namedMember e.mBase.type, abort, out, destSymbol,
          (S (namedMember e.mBase.type) abort out destSymbol e w).map Prod.fst⟩] ∧
      (∀ a w1, S (namedMember e.mBase.type) abort out destSymbol e w = some (a, w1) →
        ∃ e1, (e.apply S abort out destSymbol w).outcome = some (a, e1, w1) ∧
          e1.mBase.symbolPtrCache = a ∧ e1.mBase.destNameMurmur = e.mBase.destNameMurmur ∧
          e1.mBase.type = e.mBase.type ∧ e1.payload = e.payload) ∧
      (S (namedMember e.mBase.type) abort out destSymbol e w = none →
        (e.apply S abort out destSymbol w).outcome = none) := by
  rw [← switchMember_eq]
  refine ⟨?_, ?_, ?_⟩
  · cases hS : S e.switchMember abort out destSymbol e w with
    | none => rw [apply_none S abort out destSymbol e w (Or.inl h0) hS]; rfl
    | some r =>
      obtain ⟨a, w1⟩ := r
      rw [apply_miss_some S abort out destSymbol e w a w1 h0 hS]; rfl
  · intro a w1 hS
    rw [apply_miss_some S abort out destSymbol e w a w1 h0 hS]
    exact ⟨e.setCache a, rfl, rfl, rfl, rfl, rfl⟩
  · intro hS
    rw [apply_none S abort out destSymbol e w (Or.inl h0) hS]

/-- Instance of C1: an Immediate descriptor with an empty cache and a strategy
resolving to `4096`. -/
theorem C1_apply_cache_miss_witness :
    (mkEntry 7 SymbolType.Type_Immediate 0).mBase.symbolPtrCache = 0 ∧
      ((mkEntry 7 SymbolType.Type_Immediate 0).apply (constStrategies 4096) true 0
          (DestSymbol.murmur 7) ()).calls =
        [⟨Member.mImmediate, true, 0, DestSymbol.murmur 7, some 4096⟩] ∧
      ((mkEntry 7 SymbolType.Type_Immediate 0).apply (constStrategies 4096) true 0
          (DestSymbol.murmur 7) ()).outcome =
        some (4096, mkEntry 7 SymbolType.Type_Immediate 4096, ()) :=
  ⟨rfl,
    (C1_apply_cache_miss (constStrategies 4096) true 0 (DestSymbol.murmur 7)
      (mkEntry 7 SymbolType.Type_Immediate 0) () rfl).1,
    by decide⟩

/-- C2 (cache hit).  On a descriptor whose cache field is neither 0 nor 1,
`apply` returns the cache value in `*out`, makes no strategy invocation, and
leaves the descriptor and the outside world as they were, for every tag, abort
flag, key and initial `*out`. -/
theorem C2_apply_cache_hit {W : Type} (S : Strategies W) (abort : Bool) (out : Nat)
    (destSymbol : DestSymbol) (e : SymbolEntry) (w : W)
    (h0 : e.mBase.symbolPtrCache ≠ 0) (h1 : e.mBase.symbolPtrCache ≠ 1) :
    (e.apply S abort out destSymbol w).calls = [] ∧
      (e.apply S abort out destSymbol w).outcome = some (e.mBase.symbolPtrCache, e, w) := by
  rw [apply_hit S abort out destSymbol e w h0 h1]
  exact ⟨rfl, rfl⟩

/-- Instance of C2: a DataBlock descriptor caching `0x8000` is returned as is. -/
theorem C2_apply_cache_hit_witness :
    (mkEntry 9 SymbolType.Type_DataBlock 32768).mBase.symbolPtrCache ≠ 0 ∧
      (mkEntry 9 SymbolType.Type_DataBlock 32768).mBase.symbolPtrCache ≠ 1 ∧
      ((mkEntry 9 SymbolType.Type_DataBlock 32768).apply (constStrategies 5) false 77
          (DestSymbol.name "sym") ()).calls = [] ∧
      ((mkEntry 9 SymbolType.Type_DataBlock 32768).apply (constStrategies 5) false 77
          (DestSymbol.name "sym") ()).outcome =
        some (32768, mkEntry 9 SymbolType.Type_DataBlock 32768, ()) :=
  ⟨by decide, by decide,
    C2_apply_cache_hit (constStrategies 5) false 77 (DestSymbol.name "sym")
      (mkEntry 9 SymbolType.Type_DataBlock 32768) () (by decide) (by decide)⟩

end hk.sail.detail

/-! ## Runs of consecutive calls -/

namespace hk.sail.detail

theorem applySeq_nil {W : Type} (S : Strategies W) (e : SymbolEntry) (w : W) :
    applySeq S [] e w = ⟨[], [], [], some (e, w)⟩ := rfl

theorem applySeq_cons_none {W : Type} (S : Strategies W) (c : Call) (cs : List Call)
    (e : SymbolEntry) (w : W) (h : (e.apply S c.abort c.out c.destSymbol w).outcome = none) :
    applySeq S (c :: cs) e w = ⟨(e.apply S c.abort c.out c.destSymbol w).calls, [], [], none⟩ := by
  simp [applySeq, h]

theorem applySeq_cons_some {W : Type} (S : Strategies W) (c : Call) (cs : List Call)
    (e : SymbolEntry) (w : W) (o : Nat) (e1 : SymbolEntry) (w1 : W)
    (h : (e.apply S c.abort c.out c.destSymbol w).outcome = some (o, e1, w1)) :
    applySeq S (c :: cs) e w =
      ⟨(e.apply S c.abort c.out c.destSymbol w).calls ++ (applySeq S cs e1 w1).calls,
        o :: (applySeq S cs e1 w1).outs,
        e1.mBase.symbolPtrCache :: (applySeq S cs e1 w1).caches,
        (applySeq S cs e1 w1).final⟩ := by
  simp [applySeq, h]

theorem applySeq_disabled {W : Type} (S : Strategies W) (e : SymbolEntry)
    (h1 : e.mBase.symbolPtrCache = 1) (cs : List Call) (w : W) :
    (∀ c ∈ (applySeq S cs e w).caches, c = 1) ∧
      (applySeq S cs e w).caches.length = (applySeq S cs e w).outs.length ∧
      (applySeq S cs e w).calls.length =
        (applySeq S cs e w).outs.length + (if (applySeq S cs e w).final.isNone then 1 else 0) ∧
      (applySeq S cs e w).calls.map (fun i => (i.member, i.abort, i.out, i.destSymbol)) =
        (cs.take (applySeq S cs e w).calls.length).map
          (fun c => (namedMember e.mBase.type, c.abort, c.out, c.destSymbol)) ∧
      (applySeq S cs e w).calls.filterMap (fun i => i.result) = (applySeq S cs e w).outs ∧
      (∀ e1 w1, (applySeq S cs e w).final = some (e1, w1) →
        e1 = e ∧ (applySeq S cs e w).outs.length = cs.length) := by
  induction cs generalizing w with
  | nil => simp [applySeq_nil]
  | cons c cs ih =>
    cases hS : S e.switchMember c.abort c.out c.destSymbol e w with
    | none =>
      have ha := apply_none S c.abort c.out c.destSymbol e w (Or.inr h1) hS
      rw [applySeq_cons_none S c cs e w (by rw [ha]), ha]
      simp [switchMember_eq]
    | some r =>
      obtain ⟨a, w1⟩ := r
      have ha := apply_disabled_some S c.abort c.out c.destSymbol e w a w1 h1 hS
      rw [applySeq_cons_some S c cs e w a e w1 (by rw [ha]), ha]
      obtain ⟨i1, i2, i3, i4, i5, i6⟩ := ih w1
      refine ⟨?_, ?_, ?_, ?_, ?_, ?_⟩
      · intro x hx
        simp only [List.mem_cons] at hx
        rcases hx with hx | hx
        · rw [hx, h1]
        · exact i1 x hx
      · simp [i2]
      · simp only [List.singleton_append, List.length_cons, i3]; omega
      · simp only [List.singleton_append, List.length_cons, List.map_cons, List.take_succ_cons,
          i4, switchMember_eq]
      · simp [i5]
      · intro e1 w2 hf
        obtain ⟨j1, j2⟩ := i6 e1 w2 hf
        exact ⟨j1, by simp [j2]⟩

/-- C3 (disabled-cache sentinel).  On a descriptor whose cache field is 1, a run
of consecutive `apply` calls makes one strategy invocation per call, each of
the union member named by the tag with that call's arguments, and each call
returns what its invocation handed back; the cache field is 1 after every call
and the descriptor is unchanged at the end, whatever the strategy returned.
The run ends early only when a strategy aborts the process, inside the call
whose invocation is the last one recorded. -/
theorem C3_disabled_sentinel {W : Type} (S : Strategies W) (cs : List Call)
    (e : SymbolEntry) (w : W) (h1 : e.mBase.symbolPtrCache = 1) :
    (∀ c ∈ (applySeq S cs e w).caches, c = 1) ∧
      (applySeq S cs e w).caches.length = (applySeq S cs e w).outs.length ∧
      (applySeq S cs e w).calls.length =
        (applySeq S cs e w).outs.length + (if (applySeq S cs e w).final.isNone then 1 else 0) ∧
      (applySeq S cs e w).calls.map (fun i => (i.member, i.abort, i.out, i.destSymbol)) =
        (cs.take (applySeq S cs e w).calls.length).map
          (fun c => (namedMember e.mBase.type, c.abort, c.out, c.destSymbol)) ∧
      (applySeq S cs e w).calls.filterMap (fun i => i.result) = (applySeq S cs e w).outs ∧
      (∀ e1 w1, (applySeq S cs e w).final = some (e1, w1) →
        e1 = e ∧ (applySeq S cs e w).outs.length = cs.length ∧
          (applySeq S cs e w).calls.length = cs.length) := by
  obtain ⟨i1, i2, i3, i4, i5, i6⟩ := applySeq_disabled S e h1 cs w
  refine ⟨i1, i2, i3, i4, i5, ?_⟩
  intro e1 w1 hf
  obtain ⟨j1, j2⟩ := i6 e1 w1 hf
  refine ⟨j1, j2, ?_⟩
  rw [i3, hf, j2]
  rfl

/-- Instance of C3: three calls on a disabled Dynamic descriptor with a strategy
that returns a different address each time. -/
theorem C3_disabled_sentinel_witness :
    (mkEntry 3 SymbolType.Type_Dynamic 1).mBase.symbolPtrCache = 1 ∧
      (applySeq (countingStrategies 4096)
        [⟨true, 0, DestSymbol.murmur 3⟩, ⟨false, 0, DestSymbol.murmur 3⟩,
          ⟨true, 9, DestSymbol.murmur 3⟩]
        (mkEntry 3 SymbolType.Type_Dynamic 1) 0).calls.length = 3 ∧
      (applySeq (countingStrategies 4096)
        [⟨true, 0, DestSymbol.murmur 3⟩, ⟨false, 0, DestSymbol.murmur 3⟩,
          ⟨true, 9, DestSymbol.murmur 3⟩]
        (mkEntry 3 SymbolType.Type_Dynamic 1) 0).outs = [4096, 4097, 4098] ∧
      (applySeq (countingStrategies 4096)
        [⟨true, 0, DestSymbol.murmur 3⟩, ⟨false, 0, DestSymbol.murmur 3⟩,
          ⟨true, 9, DestSymbol.murmur 3⟩]
        (mkEntry 3 SymbolType.Type_Dynamic 1) 0).caches = [1, 1, 1] :=
  ⟨rfl,
    ((C3_disabled_sentinel (countingStrategies 4096)
        [⟨true, 0, DestSymbol.murmur 3⟩, ⟨false, 0, DestSymbol.murmur 3⟩,
          ⟨true, 9, DestSymbol.murmur 3⟩]
        (mkEntry 3 SymbolType.Type_Dynamic 1) 0 rfl).2.2.2.2.2
      (mkEntry 3 SymbolType.Type_Dynamic 1) 3 (by decide)).2.2,
    by decide, by decide⟩

end hk.sail.detail

namespace hk.sail.detail

/-- One returning call: either the cache was not 0 and the descriptor is
unchanged, or it was 0 and the cache now holds the value the single strategy
invocation handed back. -/
theorem apply_outcome_cases {W : Type} (S : Strategies W) (abort : Bool) (out : Nat)
    (destSymbol : DestSymbol) (e : SymbolEntry) (w : W) (o : Nat) (e1 : SymbolEntry) (w1 : W)
    (h : (e.apply S abort out destSymbol w).outcome = some (o, e1, w1)) :
    (e.mBase.symbolPtrCache ≠ 0 ∧ e1 = e) ∨
      (e.mBase.symbolPtrCache = 0 ∧ e1 = e.setCache o ∧
        (e.apply S abort out destSymbol w).calls =
          [⟨e.switchMember, abort, out, destSymbol, some o⟩]) := by
  by_cases h0 : e.mBase.symbolPtrCache = 0
  · right
    cases hS : S e.switchMember abort out destSymbol e w with
    | none =>
      rw [apply_none S abort out destSymbol e w (Or.inl h0) hS] at h
      simp at h
    | some r =>
      obtain ⟨a, w2⟩ := r
      rw [apply_miss_some S abort out destSymbol e w a w2 h0 hS] at h ⊢
      simp only [Option.some.injEq, Prod.mk.injEq] at h
      obtain ⟨ha, he, _⟩ := h
      subst ha
      exact ⟨h0, he.symm, rfl⟩
  · left
    refine ⟨h0, ?_⟩
    by_cases h1 : e.mBase.symbolPtrCache = 1
    · cases hS : S e.switchMember abort out destSymbol e w with
      | none =>
        rw [apply_none S abort out destSymbol e w (Or.inr h1) hS] at h
        simp at h
      | some r =>
        obtain ⟨a, w2⟩ := r
        rw [apply_disabled_some S abort out destSymbol e w a w2 h1 hS] at h
        simp only [Option.some.injEq, Prod.mk.injEq] at h
        exact h.2.1.symm
    · rw [apply_hit S abort out destSymbol e w h0 h1] at h
      simp only [Option.some.injEq, Prod.mk.injEq] at h
      exact h.2.1.symm

theorem cacheStep_const (a : Nat) (ha : a ≠ 0) (l : List Nat)
    (h : List.Chain' cacheStep (a :: l)) : ∀ c ∈ l, c = a := by
  induction l with
  | nil => simp
  | cons b l ih =>
    rw [List.chain'_cons] at h
    obtain ⟨hab, hl⟩ := h
    have hb : a = b := by
      rcases hab with hab | hab
      · exact hab
      · exact absurd hab.1 ha
    subst hb
    intro c hc
    simp only [List.mem_cons] at hc
    rcases hc with hc | hc
    · exact hc
    · exact ih (by
        cases l with
        | nil => exact List.chain'_singleton _
        | cons d l =>
          rw [List.chain'_cons] at hl ⊢
          exact hl) c hc

theorem cacheChanges_const (a : Nat) (l : List Nat) (h : ∀ c ∈ l, c = a) :
    cacheChanges (a :: l) = 0 := by
  induction l with
  | nil => rfl
  | cons b l ih =>
    have hb : b = a := h b (by simp)
    subst hb
    simp only [cacheChanges, if_true, Nat.zero_add]
    exact ih (fun c hc => h c (by simp [hc]))

theorem cacheStep_changes (l : List Nat) (h : List.Chain' cacheStep l) :
    cacheChanges l ≤ 1 := by
  induction l with
  | nil => simp [cacheChanges]
  | cons a l ih =>
    cases l with
    | nil => simp [cacheChanges]
    | cons b l =>
      have h2 := h
      rw [List.chain'_cons] at h2
      obtain ⟨hab, hl⟩ := h2
      rcases hab with hab | hab
      · subst hab
        simp only [cacheChanges, if_true, Nat.zero_add]
        exact ih hl
      · have hb : b ≠ 0 := by omega
        have hc := cacheChanges_const b l (cacheStep_const b hb l hl)
        simp only [cacheChanges] at hc ⊢
        rw [hc]
        split <;> omega

theorem cacheStep_not_disabled (l : List Nat) (h : List.Chain' cacheStep (0 :: l)) :
    1 ∉ l := by
  induction l with
  | nil => simp
  | cons b l ih =>
    have h2 := h
    rw [List.chain'_cons] at h2
    obtain ⟨hab, hl⟩ := h2
    intro hmem
    simp only [List.mem_cons] at hmem
    rcases hab with hab | hab
    · subst hab
      rcases hmem with hm | hm
      · exact absurd hm (by decide)
      · exact ih hl hm
    · rcases hmem with hm | hm
      · omega
      · have := cacheStep_const b (by omega) l hl 1 hm
        omega

/-- In a run in which no strategy invocation hands back 1, the successive cache
values form a chain of admissible steps. -/
theorem applySeq_chain {W : Type} (S : Strategies W) (cs : List Call) (e : SymbolEntry) (w : W)
    (hres : ∀ inv ∈ (applySeq S cs e w).calls, inv.result ≠ some 1) :
    List.Chain' cacheStep (e.mBase.symbolPtrCache :: (applySeq S cs e w).caches) := by
  induction cs generalizing e w with
  | nil => simp [applySeq_nil]
  | cons c cs ih =>
    cases ho : (e.apply S c.abort c.out c.destSymbol w).outcome with
    | none =>
      rw [applySeq_cons_none S c cs e w ho]
      exact List.chain'_singleton _
    | some r =>
      obtain ⟨o, e1, w1⟩ := r
      rw [applySeq_cons_some S c cs e w o e1 w1 ho] at hres ⊢
      simp only at hres ⊢
      have hrest := ih e1 w1 (fun inv hi => hres inv (List.mem_append_right _ hi))
      rw [List.chain'_cons]
      refine ⟨?_, hrest⟩
      rcases apply_outcome_cases S c.abort c.out c.destSymbol e w o e1 w1 ho with
        ⟨_, he⟩ | ⟨h0, he, hc⟩
      · left; rw [he]
      · have ho1 : o ≠ 1 := by
          intro h1
          have := hres ⟨e.switchMember, c.abort, c.out, c.destSymbol, some o⟩
            (List.mem_append_left _ (by rw [hc]; simp))
          simp [h1] at this
        rw [he, h0]
        by_cases hz : o = 0
        · left; simp [SymbolEntry.setCache, hz]
        · right
          refine ⟨rfl, ?_⟩
          simp only [SymbolEntry.setCache]
          omega

end hk.sail.detail

namespace hk.sail.detail

/-- A resolved descriptor answers every call of a run from its cache. -/
theorem applySeq_resolved {W : Type} (S : Strategies W) (cs : List Call) (e : SymbolEntry)
    (w : W) (h0 : e.mBase.symbolPtrCache ≠ 0) (h1 : e.mBase.symbolPtrCache ≠ 1) :
    applySeq S cs e w =
      ⟨[], List.replicate cs.length e.mBase.symbolPtrCache,
        List.replicate cs.length e.mBase.symbolPtrCache, some (e, w)⟩ := by
  induction cs with
  | nil => rfl
  | cons c cs ih =>
    have ha := apply_hit S c.abort c.out c.destSymbol e w h0 h1
    rw [applySeq_cons_some S c cs e w e.mBase.symbolPtrCache e w (by rw [ha]), ha, ih]
    simp [List.replicate_succ]

/-- C4 (idempotence), amended.  On a descriptor whose cache field is not the
sentinel 1, two consecutive `apply` calls in which every address handed back by
a strategy is greater than 1 make at most one strategy invocation in total, and
either the process is aborted by the strategy in the first call, or both calls
return the same address, which is greater than 1 and is the cache value after
each call. -/
theorem C4_idempotent_when_resolved {W : Type} (S : Strategies W) (c1 c2 : Call)
    (e : SymbolEntry) (w : W) (h1 : e.mBase.symbolPtrCache ≠ 1)
    (hres : ∀ inv ∈ (applySeq S [c1, c2] e w).calls, ∀ a, inv.result = some a → 1 < a) :
    (applySeq S [c1, c2] e w).calls.length ≤ 1 ∧
      (((applySeq S [c1, c2] e w).final = none ∧ (applySeq S [c1, c2] e w).outs = []) ∨
        ∃ a, 1 < a ∧ (applySeq S [c1, c2] e w).outs = [a, a] ∧
          (applySeq S [c1, c2] e w).caches = [a, a] ∧
          (applySeq S [c1, c2] e w).final.isSome = true) := by
  by_cases h0 : e.mBase.symbolPtrCache = 0
  · cases hS : S e.switchMember c1.abort c1.out c1.destSymbol e w with
    | none =>
      have ha := apply_none S c1.abort c1.out c1.destSymbol e w (Or.inl h0) hS
      rw [applySeq_cons_none S c1 [c2] e w (by rw [ha]), ha]
      simp
    | some r =>
      obtain ⟨a, w1⟩ := r
      have ha := apply_miss_some S c1.abort c1.out c1.destSymbol e w a w1 h0 hS
      rw [applySeq_cons_some S c1 [c2] e w a (e.setCache a) w1 (by rw [ha]), ha] at hres ⊢
      have hgt : 1 < a :=
        hres ⟨e.switchMember, c1.abort, c1.out, c1.destSymbol, some a⟩ (by simp) a rfl
      have hc : (e.setCache a).mBase.symbolPtrCache = a := rfl
      rw [applySeq_resolved S [c2] (e.setCache a) w1 (by rw [hc]; omega) (by rw [hc]; omega)]
      refine ⟨by simp, Or.inr ⟨a, hgt, ?_, ?_, rfl⟩⟩ <;> simp [hc]
  · rw [applySeq_resolved S [c1, c2] e w h0 h1]
    refine ⟨by simp, Or.inr ⟨e.mBase.symbolPtrCache, by omega, ?_, ?_, rfl⟩⟩ <;>
      simp [List.replicate_succ]

/-- Instance of C4 as amended: an unresolved Immediate descriptor and a strategy
resolving to `4096`, called twice. -/
theorem C4_idempotent_when_resolved_witness :
    (mkEntry 7 SymbolType.Type_Immediate 0).mBase.symbolPtrCache ≠ 1 ∧
      (applySeq (constStrategies 4096)
        [⟨true, 0, DestSymbol.murmur 7⟩, ⟨true, 0, DestSymbol.murmur 7⟩]
        (mkEntry 7 SymbolType.Type_Immediate 0) ()).calls.length ≤ 1 ∧
      (applySeq (constStrategies 4096)
        [⟨true, 0, DestSymbol.murmur 7⟩, ⟨true, 0, DestSymbol.murmur 7⟩]
        (mkEntry 7 SymbolType.Type_Immediate 0) ()).outs = [4096, 4096] :=
  ⟨by decide,
    (C4_idempotent_when_resolved (constStrategies 4096) ⟨true, 0, DestSymbol.murmur 7⟩
      ⟨true, 0, DestSymbol.murmur 7⟩ (mkEntry 7 SymbolType.Type_Immediate 0) () (by decide)
      (by decide)).1,
    by decide⟩

/-- C4 as stated fails at the addresses 0 and 1.  An unresolved descriptor whose
strategy first returns without writing `*out` (address 0) is not cached: the
second call invokes the strategy again and returns another address.  A
strategy handing back 1 turns the cache into the sentinel: the second call
invokes the strategy again. -/
theorem C4_counterexample :
    (mkEntry 7 SymbolType.Type_DataBlock 0).mBase.symbolPtrCache ≠ 1 ∧
      (applySeq lateStrategies
        [⟨false, 0, DestSymbol.murmur 7⟩, ⟨false, 0, DestSymbol.murmur 7⟩]
        (mkEntry 7 SymbolType.Type_DataBlock 0) 0).outs = [0, 20480] ∧
      ¬ (applySeq lateStrategies
        [⟨false, 0, DestSymbol.murmur 7⟩, ⟨false, 0, DestSymbol.murmur 7⟩]
        (mkEntry 7 SymbolType.Type_DataBlock 0) 0).calls.length ≤ 1 ∧
      ¬ (applySeq (constStrategies 1)
        [⟨false, 0, DestSymbol.murmur 7⟩, ⟨false, 0, DestSymbol.murmur 7⟩]
        (mkEntry 7 SymbolType.Type_DataBlock 0) ()).calls.length ≤ 1 := by
  decide

/-- C10 (cache state machine), amended.  Over every run of consecutive `apply`
calls on one descriptor in which no strategy invocation hands back the value 1:
every step of the cache field is either no change or Unresolved (0) to Resolved
(above 1); from any point of the run at which the cache is not 0 it keeps its
value (Disabled stays Disabled, Resolved is terminal); and a descriptor that
starts Unresolved changes its cache field at most once and never becomes
Disabled. -/
theorem C10_cache_state_machine {W : Type} (S : Strategies W) (cs : List Call)
    (e : SymbolEntry) (w : W)
    (hres : ∀ inv ∈ (applySeq S cs e w).calls, inv.result ≠ some 1) :
    List.Chain' cacheStep (e.mBase.symbolPtrCache :: (applySeq S cs e w).caches) ∧
      (e.mBase.symbolPtrCache = 1 → ∀ c ∈ (applySeq S cs e w).caches, c = 1) ∧
      (1 < e.mBase.symbolPtrCache →
        ∀ c ∈ (applySeq S cs e w).caches, c = e.mBase.symbolPtrCache) ∧
      (∀ l1 a l2, e.mBase.symbolPtrCache :: (applySeq S cs e w).caches = l1 ++ a :: l2 →
        a ≠ 0 → ∀ c ∈ l2, c = a) ∧
      (e.mBase.symbolPtrCache = 0 →
        cacheChanges (e.mBase.symbolPtrCache :: (applySeq S cs e w).caches) ≤ 1 ∧
          1 ∉ (applySeq S cs e w).caches) := by
  have hch := applySeq_chain S cs e w hres
  refine ⟨hch, ?_, ?_, ?_, ?_⟩
  · intro h1 c hc
    rw [cacheStep_const _ (by omega) _ hch c hc, h1]
  · intro h1 c hc
    exact cacheStep_const _ (by omega) _ hch c hc
  · intro l1 a l2 hl ha c hc
    rw [hl] at hch
    exact cacheStep_const a ha l2 (List.Chain'.right_of_append hch) c hc
  · intro h0
    refine ⟨cacheStep_changes _ hch, ?_⟩
    rw [h0] at hch
    exact cacheStep_not_disabled _ hch

/-- Instance of C10 as amended: a strategy that fails once and then resolves to
`20480`; the cache goes 0, 0, 20480, 20480. -/
theorem C10_cache_state_machine_witness :
    (applySeq lateStrategies
        [⟨false, 0, DestSymbol.murmur 7⟩, ⟨false, 0, DestSymbol.murmur 7⟩,
          ⟨false, 0, DestSymbol.murmur 7⟩]
        (mkEntry 7 SymbolType.Type_DataBlock 0) 0).caches = [0, 20480, 20480] ∧
      cacheChanges ((mkEntry 7 SymbolType.Type_DataBlock 0).mBase.symbolPtrCache ::
        (applySeq lateStrategies
          [⟨false, 0, DestSymbol.murmur 7⟩, ⟨false, 0, DestSymbol.murmur 7⟩,
            ⟨false, 0, DestSymbol.murmur 7⟩]
          (mkEntry 7 SymbolType.Type_DataBlock 0) 0).caches) ≤ 1 :=
  ⟨by decide,
    ((C10_cache_state_machine lateStrategies
        [⟨false, 0, DestSymbol.murmur 7⟩, ⟨false, 0, DestSymbol.murmur 7⟩,
          ⟨false, 0, DestSymbol.murmur 7⟩]
        (mkEntry 7 SymbolType.Type_DataBlock 0) 0 (by decide)).2.2.2.2 rfl).1⟩

/-- C10 as stated fails when a strategy hands back the value 1: the descriptor
starts Unresolved, its cache becomes the sentinel 1 (Disabled), which is not a
step from Unresolved to Resolved, and the next call invokes the strategy
again. -/
theorem C10_counterexample :
    (mkEntry 5 SymbolType.Type_Arithmetic 0).mBase.symbolPtrCache = 0 ∧
      (applySeq (constStrategies 1)
        [⟨true, 0, DestSymbol.murmur 5⟩, ⟨true, 0, DestSymbol.murmur 5⟩]
        (mkEntry 5 SymbolType.Type_Arithmetic 0) ()).caches = [1, 1] ∧
      (applySeq (constStrategies 1)
        [⟨true, 0, DestSymbol.murmur 5⟩, ⟨true, 0, DestSymbol.murmur 5⟩]
        (mkEntry 5 SymbolType.Type_Arithmetic 0) ()).calls.length = 2 ∧
      ¬ cacheStep 0 1 :=
  ⟨by decide, by decide, by decide, by unfold cacheStep; omega⟩

end hk.sail.detail

/-! ## The table search -/

namespace hk.util

open hk.sail in
/-- What the loop of `binarySearch` does on any getter, sorted or not: with a
budget above the width of the interval it ends, it reads indices of the
interval only, and it returns `-1` or an index of the interval holding the
searched value. -/
theorem binarySearchLoop_sound (g : Nat → Nat) (v : Nat) (fuel : Nat) (low high : Int)
    (hlow : 0 ≤ low) (hhigh : high < 2 ^ 31) (hfuel : (high + 1 - low).toNat < fuel) :
    ∃ r, binarySearchLoop g v fuel low high = some r ∧
      (r = -1 ∨ (low ≤ r ∧ r ≤ high ∧ g r.toNat = v)) := by
  induction fuel generalizing low high with
  | zero => omega
  | succ fuel ih =>
    unfold binarySearchLoop
    by_cases hle : low ≤ high
    · have hmid : toU32 ((low + high) / 2) = ((low + high) / 2).toNat := by
        unfold toU32
        congr 1
        omega
      rw [if_pos hle, hmid]
      by_cases heq : g ((low + high) / 2).toNat = v
      · rw [if_pos heq]
        exact ⟨_, rfl, Or.inr ⟨by omega, by omega, heq⟩⟩
      · rw [if_neg heq]
        by_cases hlt : g ((low + high) / 2).toNat < v
        · rw [if_pos hlt]
          obtain ⟨r, hr, hcase⟩ := ih ((low + high) / 2 + 1) high (by omega) hhigh (by omega)
          refine ⟨r, hr, ?_⟩
          rcases hcase with h | ⟨h1, h2, h3⟩
          · exact Or.inl h
          · exact Or.inr ⟨by omega, h2, h3⟩
        · rw [if_neg hlt]
          obtain ⟨r, hr, hcase⟩ := ih low ((low + high) / 2 - 1) hlow (by omega) (by omega)
          refine ⟨r, hr, ?_⟩
          rcases hcase with h | ⟨h1, h2, h3⟩
          · exact Or.inl h
          · exact Or.inr ⟨h1, by omega, h3⟩
    · rw [if_neg hle]
      exact ⟨-1, rfl, Or.inl rfl⟩

/-- The budget `binarySearch` gives its loop is never used up. -/
theorem binarySearchLoop_isSome (g : Nat → Nat) (v : Nat) (low high : Int)
    (hlow : 0 ≤ low) (hhigh : high < 2 ^ 31) :
    (binarySearchLoop g v ((high + 1 - low).toNat + 1) low high).isSome = true := by
  obtain ⟨r, hr, _⟩ := binarySearchLoop_sound g v ((high + 1 - low).toNat + 1) low high hlow hhigh
    (by omega)
  rw [hr]
  rfl

/-- The loop depends on the getter inside the interval only. -/
theorem binarySearchLoop_congr (g g2 : Nat → Nat) (v : Nat) (fuel : Nat) (low high : Int)
    (hlow : 0 ≤ low) (hhigh : high < 2 ^ 31)
    (hg : ∀ i : Nat, low ≤ (i : Int) → (i : Int) ≤ high → g i = g2 i) :
    binarySearchLoop g v fuel low high = binarySearchLoop g2 v fuel low high := by
  induction fuel generalizing low high with
  | zero => rfl
  | succ fuel ih =>
    unfold binarySearchLoop
    by_cases hle : low ≤ high
    · have hmid : hk.sail.toU32 ((low + high) / 2) = ((low + high) / 2).toNat := by
        unfold hk.sail.toU32
        congr 1
        omega
      have hgm : g ((low + high) / 2).toNat = g2 ((low + high) / 2).toNat :=
        hg _ (by omega) (by omega)
      rw [if_pos hle, if_pos hle, hmid, hgm,
        ih ((low + high) / 2 + 1) high (by omega) hhigh (fun i h1 h2 => hg i (by omega) h2),
        ih low ((low + high) / 2 - 1) hlow (by omega) (fun i h1 h2 => hg i h1 (by omega))]
    · rw [if_neg hle, if_neg hle]

/-- On a getter that is strictly increasing on the interval, the loop finds the
index of the searched value whenever the interval holds it. -/
theorem binarySearchLoop_complete (g : Nat → Nat) (v : Nat) (fuel : Nat) (low high : Int)
    (hlow : 0 ≤ low) (hhigh : high < 2 ^ 31) (hfuel : (high + 1 - low).toNat < fuel)
    (hmono : ∀ i j : Nat, low ≤ (i : Int) → i < j → (j : Int) ≤ high → g i < g j)
    (k : Nat) (hk1 : low ≤ (k : Int)) (hk2 : (k : Int) ≤ high) (hkv : g k = v) :
    binarySearchLoop g v fuel low high = some (k : Int) := by
  induction fuel generalizing low high with
  | zero => omega
  | succ fuel ih =>
    unfold binarySearchLoop
    have hle : low ≤ high := by omega
    have hmid : hk.sail.toU32 ((low + high) / 2) = ((low + high) / 2).toNat := by
      unfold hk.sail.toU32
      congr 1
      omega
    rw [if_pos hle, hmid]
    have hm0 : (((low + high) / 2).toNat : Int) = (low + high) / 2 := by omega
    rcases Nat.lt_trichotomy ((low + high) / 2).toNat k with hlt | heq | hgt
    · have hg := hmono ((low + high) / 2).toNat k (by omega) hlt hk2
      rw [if_neg (by omega), if_pos (by omega)]
      exact ih _ _ (by omega) hhigh (by omega)
        (fun i j h1 h2 h3 => hmono i j (by omega) h2 h3) (by omega) hk2
    · rw [if_pos (by rw [heq]; exact hkv)]
      congr 1
      omega
    · have hg := hmono k ((low + high) / 2).toNat hk1 hgt (by omega)
      rw [if_neg (by omega), if_neg (by omega)]
      exact ih _ _ hlow (by omega) (by omega)
        (fun i j h1 h2 h3 => hmono i j h1 h2 (by omega)) hk1 (by omega)

end hk.util

namespace hk.sail

/-- The upper bound handed to the search, `gNumSymbols - 1` computed on `size`
and converted to the signed index type, is below `2^31` and never above the
last index of the table; for the empty table it is `-1`. -/
theorem toS32_size_pred (n : Nat) :
    toS32 ((n + 2 ^ 64 - 1) % 2 ^ 64) < 2 ^ 31 ∧ toS32 ((n + 2 ^ 64 - 1) % 2 ^ 64) ≤ (n : Int) - 1 := by
  unfold toS32
  split <;> constructor <;> omega

theorem toS32_size_pred_eq (n : Nat) (h0 : 0 < n) (hn : n < 2 ^ 31) :
    toS32 ((n + 2 ^ 64 - 1) % 2 ^ 64) = (n : Int) - 1 := by
  unfold toS32
  split <;> omega

namespace detail

theorem getNameMurmur32At_of_getElem (gSymbols : List SymbolEntry) (i : Nat) (e : SymbolEntry)
    (h : gSymbols[i]? = some e) : getNameMurmur32At gSymbols i = e.getNameMurmur32 := by
  simp [getNameMurmur32At, h]

/-- The search result, unfolded: the value found by the loop. -/
theorem lookupSymbolByHash_loop (gSymbols : List SymbolEntry) (h : Nat) :
    ∃ r, hk.util.binarySearch (getNameMurmur32At gSymbols) 0
        (toS32 ((gSymbols.length + 2 ^ 64 - 1) % 2 ^ 64)) h = r ∧
      hk.util.binarySearchLoop (getNameMurmur32At gSymbols) h
        ((toS32 ((gSymbols.length + 2 ^ 64 - 1) % 2 ^ 64) + 1 - 0).toNat + 1) 0
        (toS32 ((gSymbols.length + 2 ^ 64 - 1) % 2 ^ 64)) = some r ∧
      (r = -1 ∨ (0 ≤ r ∧ r ≤ (gSymbols.length : Int) - 1 ∧
        getNameMurmur32At gSymbols r.toNat = h)) := by
  obtain ⟨hb1, hb2⟩ := toS32_size_pred gSymbols.length
  obtain ⟨r, hr, hcase⟩ := hk.util.binarySearchLoop_sound (getNameMurmur32At gSymbols) h
    ((toS32 ((gSymbols.length + 2 ^ 64 - 1) % 2 ^ 64) + 1 - 0).toNat + 1) 0
    (toS32 ((gSymbols.length + 2 ^ 64 - 1) % 2 ^ 64)) (le_refl 0) hb1 (by omega)
  refine ⟨r, ?_, hr, ?_⟩
  · unfold hk.util.binarySearch
    rw [hr]
    rfl
  · rcases hcase with hc | ⟨h1, h2, h3⟩
    · exact Or.inl hc
    · exact Or.inr ⟨h1, by omega, h3⟩

/-- A pointer returned by `lookupSymbolByHash` points into the table, at an
entry with the requested hash; this holds for every table, sorted or not. -/
theorem lookupSymbolByHash_sound (gSymbols : List SymbolEntry) (h i : Nat)
    (hl : lookupSymbolByHash gSymbols h = some i) :
    ∃ e, gSymbols[i]? = some e ∧ e.getNameMurmur32 = h := by
  obtain ⟨r, hr, _, hcase⟩ := lookupSymbolByHash_loop gSymbols h
  unfold lookupSymbolByHash at hl
  rw [hr] at hl
  rcases hcase with hc | ⟨h1, h2, h3⟩
  · simp [hc] at hl
  · by_cases hne : r ≠ -1
    · rw [if_pos hne] at hl
      simp only [Option.some.injEq] at hl
      have hlt : i < gSymbols.length := by omega
      refine ⟨gSymbols[i], by simp [hlt], ?_⟩
      rw [← h3, hl]
      simp [getNameMurmur32At, hlt]
    · rw [if_neg hne] at hl
      simp at hl

/-- A hash that no entry carries is not found, in any table. -/
theorem lookupSymbolByHash_absent (gSymbols : List SymbolEntry) (h : Nat)
    (habs : ∀ e ∈ gSymbols, e.getNameMurmur32 ≠ h) :
    lookupSymbolByHash gSymbols h = none := by
  cases hl : lookupSymbolByHash gSymbols h with
  | none => rfl
  | some i =>
    obtain ⟨e, he, hh⟩ := lookupSymbolByHash_sound gSymbols h i hl
    exact absurd hh (habs e (List.getElem?_mem he))

/-- In a table of fewer than `2^31` entries whose hashes are strictly
increasing, the entry carrying the requested hash is found. -/
theorem lookupSymbolByHash_complete (gSymbols : List SymbolEntry) (h : Nat)
    (hlen : gSymbols.length < 2 ^ 31)
    (hsorted : List.Pairwise (fun a b => a < b) (gSymbols.map SymbolEntry.getNameMurmur32))
    (k : Nat) (e : SymbolEntry) (hk1 : gSymbols[k]? = some e) (hk2 : e.getNameMurmur32 = h) :
    lookupSymbolByHash gSymbols h = some k := by
  have hklt : k < gSymbols.length := by
    rcases Nat.lt_or_ge k gSymbols.length with hlt | hge
    · exact hlt
    · rw [List.getElem?_eq_none hge] at hk1
      simp at hk1
  have hhi := toS32_size_pred_eq gSymbols.length (by omega) hlen
  have hmono : ∀ i j : Nat, (0 : Int) ≤ (i : Int) → i < j → (j : Int) ≤ (gSymbols.length : Int) - 1 →
      getNameMurmur32At gSymbols i < getNameMurmur32At gSymbols j := by
    intro i j _ hij hj
    have hjl : j < gSymbols.length := by omega
    have hil : i < gSymbols.length := by omega
    have hp := (List.pairwise_iff_getElem.mp hsorted) i j (by simpa using hil)
      (by simpa using hjl) hij
    simpa [getNameMurmur32At, hil, hjl] using hp
  have hloop := hk.util.binarySearchLoop_complete (getNameMurmur32At gSymbols) h
    (((gSymbols.length : Int) - 1 + 1 - 0).toNat + 1) 0 ((gSymbols.length : Int) - 1)
    (le_refl 0) (by omega) (by omega) hmono k (by omega) (by omega)
    (by rw [getNameMurmur32At_of_getElem gSymbols k e hk1, hk2])
  unfold lookupSymbolByHash hk.util.binarySearch
  rw [hhi, hloop]
  simp only [Option.getD_some]
  rw [if_pos (by omega)]
  simp

theorem linearScanFrom_absent (h : Nat) (l : List SymbolEntry) (i : Nat)
    (habs : ∀ e ∈ l, e.getNameMurmur32 ≠ h) : linearScanFrom h l i = none := by
  induction l generalizing i with
  | nil => rfl
  | cons e es ih =>
    unfold linearScanFrom
    rw [if_neg (habs e (by simp))]
    exact ih (i + 1) (fun x hx => habs x (by simp [hx]))

theorem linearScanFrom_first (h : Nat) (l : List SymbolEntry) (i k : Nat) (e : SymbolEntry)
    (hk1 : l[k]? = some e) (hk2 : e.getNameMurmur32 = h)
    (hfirst : ∀ j x, j < k → l[j]? = some x → x.getNameMurmur32 ≠ h) :
    linearScanFrom h l i = some (i + k) := by
  induction l generalizing i k with
  | nil => simp at hk1
  | cons a es ih =>
    unfold linearScanFrom
    cases k with
    | zero =>
      simp only [List.getElem?_cons_zero, Option.some.injEq] at hk1
      rw [hk1, if_pos hk2]
      rfl
    | succ k =>
      rw [if_neg (hfirst 0 a (by omega) (by simp))]
      simp only [List.getElem?_cons_succ] at hk1
      rw [ih (i + 1) k hk1 (fun j x hj hx => hfirst (j + 1) x (by omega) (by simpa using hx))]
      congr 1
      omega

end detail

end hk.sail

namespace hk.sail.detail

/-- The search reads the table inside its bounds only: a getter that agrees with
the table on the indices below `gNumSymbols` gives the same result. -/
theorem binarySearch_congr_table (gSymbols : List SymbolEntry) (g : Nat → Nat) (h : Nat)
    (hg : ∀ i, i < gSymbols.length → g i = getNameMurmur32At gSymbols i) :
    hk.util.binarySearch g 0 (toS32 ((gSymbols.length + 2 ^ 64 - 1) % 2 ^ 64)) h =
      hk.util.binarySearch (getNameMurmur32At gSymbols) 0
        (toS32 ((gSymbols.length + 2 ^ 64 - 1) % 2 ^ 64)) h := by
  obtain ⟨hb1, hb2⟩ := toS32_size_pred gSymbols.length
  unfold hk.util.binarySearch
  rw [hk.util.binarySearchLoop_congr g (getNameMurmur32At gSymbols) h _ 0 _ (le_refl 0) hb1
    (fun i _ hi => hg i (by omega))]

/-- C5 (find equals linear scan).  In every table of fewer than `2^31` entries
(the non-empty ones in particular) sorted ascending by `destNameMurmur` without
duplicate hashes, and for every hash `h`, `lookupSymbolByHash h` returns the
same result as a linear scan of the table for `h`: the entry whose hash is `h`
when there is one, and null when there is none. -/
theorem C5_find_equals_linear_scan (gSymbols : List SymbolEntry) (h : Nat)
    (hlen : gSymbols.length < 2 ^ 31)
    (hsorted : List.Pairwise (fun a b => a ≤ b) (gSymbols.map SymbolEntry.getNameMurmur32))
    (hnodup : (gSymbols.map SymbolEntry.getNameMurmur32).Nodup) :
    lookupSymbolByHash gSymbols h = linearScan gSymbols h ∧
      (∀ k e, gSymbols[k]? = some e → e.getNameMurmur32 = h →
        lookupSymbolByHash gSymbols h = some k) ∧
      ((∀ e ∈ gSymbols, e.getNameMurmur32 ≠ h) → lookupSymbolByHash gSymbols h = none) := by
  have hstrict : List.Pairwise (fun a b => a < b) (gSymbols.map SymbolEntry.getNameMurmur32) :=
    List.Sorted.lt_of_le hsorted hnodup
  refine ⟨?_, fun k e hk1 hk2 => lookupSymbolByHash_complete gSymbols h hlen hstrict k e hk1 hk2,
    lookupSymbolByHash_absent gSymbols h⟩
  by_cases hex : ∃ e ∈ gSymbols, e.getNameMurmur32 = h
  · obtain ⟨e, hmem, hh⟩ := hex
    obtain ⟨k, hk1⟩ := List.mem_iff_getElem?.mp hmem
    rw [lookupSymbolByHash_complete gSymbols h hlen hstrict k e hk1 hh]
    unfold linearScan
    rw [linearScanFrom_first h gSymbols 0 k e hk1 hh ?_]
    · simp
    · intro j x hj hx
      obtain ⟨hjl, hxe⟩ := List.getElem?_eq_some.mp hx
      obtain ⟨hkl, hke⟩ := List.getElem?_eq_some.mp hk1
      have hp := (List.pairwise_iff_getElem.mp hstrict) j k (by simpa using hjl)
        (by simpa using hkl) hj
      simp only [List.getElem_map, hxe, hke] at hp
      omega
  · have habs : ∀ e ∈ gSymbols, e.getNameMurmur32 ≠ h := fun e he hh => hex ⟨e, he, hh⟩
    rw [lookupSymbolByHash_absent gSymbols h habs]
    unfold linearScan
    rw [linearScanFrom_absent h gSymbols 0 habs]

/-- Instance of C5: the sample table, searched for the hash 12 of its last
entry. -/
theorem C5_find_equals_linear_scan_witness :
    lookupSymbolByHash sampleTable 12 = linearScan sampleTable 12 ∧
      linearScan sampleTable 12 = some 2 :=
  ⟨(C5_find_equals_linear_scan sampleTable 12 (by decide) (by decide) (by decide)).1,
    by decide⟩

end hk.sail.detail

/-! ## The lookup entry point -/

namespace hk.sail

/-- A lookup whose key is not found: the abort flag alone decides. -/
theorem lookupSymbolFromDb_miss {W : Type} (hashMurmur : String → Nat) (S : detail.Strategies W)
    (gSymbols : List detail.SymbolEntry) (w : W) (symbol : detail.DestSymbol) (abort : Bool)
    (hl : detail.lookupSymbolByHash gSymbols (destHash hashMurmur symbol) = none) :
    lookupSymbolFromDb hashMurmur S gSymbols w symbol abort =
      if abort then ⟨[], Outcome.aborted (Diag.unresolvedSymbol symbol)⟩
      else ⟨[], Outcome.returned (0, gSymbols, w)⟩ := by
  unfold lookupSymbolFromDb
  rw [hl]
  cases abort <;> rfl

/-- A lookup whose key is found: the entry is resolved by `apply` with the abort
flag set and `*out` initialised to 0, whatever flag the caller passed. -/
theorem lookupSymbolFromDb_found {W : Type} (hashMurmur : String → Nat) (S : detail.Strategies W)
    (gSymbols : List detail.SymbolEntry) (w : W) (symbol : detail.DestSymbol) (abort : Bool)
    (idx : Nat) (hl : detail.lookupSymbolByHash gSymbols (destHash hashMurmur symbol) = some idx) :
    ∃ e, gSymbols[idx]? = some e ∧ e.getNameMurmur32 = destHash hashMurmur symbol ∧
      lookupSymbolFromDb hashMurmur S gSymbols w symbol abort =
        match (e.apply S true 0 symbol w).outcome with
        | none => ⟨(e.apply S true 0 symbol w).calls, Outcome.aborted Diag.inStrategy⟩
        | some (out, e1, w1) =>
          ⟨(e.apply S true 0 symbol w).calls, Outcome.returned (out, gSymbols.set idx e1, w1)⟩ := by
  obtain ⟨e, he, hh⟩ := detail.lookupSymbolByHash_sound gSymbols _ idx hl
  refine ⟨e, he, hh, ?_⟩
  unfold lookupSymbolFromDb
  rw [hl]
  cases abort
  · simp only [Bool.false_eq_true, if_false, he]
  · simp only [if_true, HK_ABORT_UNLESS, he]
    rfl

end hk.sail

namespace hk.sail

/-- The three ways one `apply` call can go: answered from the cache without any
invocation, one invocation that aborts, or one invocation that returns the
value `apply` then returns. -/
theorem detail.apply_cases {W : Type} (S : detail.Strategies W) (abort : Bool) (out : Nat)
    (destSymbol : detail.DestSymbol) (e : detail.SymbolEntry) (w : W) :
    ((e.apply S abort out destSymbol w).calls = [] ∧
        (e.apply S abort out destSymbol w).outcome = some (e.mBase.symbolPtrCache, e, w) ∧
        e.mBase.symbolPtrCache ≠ 0) ∨
      ((e.apply S abort out destSymbol w).calls =
          [⟨e.switchMember, abort, out, destSymbol, none⟩] ∧
        (e.apply S abort out destSymbol w).outcome = none) ∨
      ∃ a e1 w1, (e.apply S abort out destSymbol w).calls =
          [⟨e.switchMember, abort, out, destSymbol, some a⟩] ∧
        (e.apply S abort out destSymbol w).outcome = some (a, e1, w1) := by
  by_cases hc : e.mBase.symbolPtrCache = 0 ∨ e.mBase.symbolPtrCache = 1
  · cases hS : S e.switchMember abort out destSymbol e w with
    | none =>
      rw [detail.apply_none S abort out destSymbol e w hc hS]
      exact Or.inr (Or.inl ⟨rfl, rfl⟩)
    | some r =>
      obtain ⟨a, w1⟩ := r
      rcases hc with hc | hc
      · rw [detail.apply_miss_some S abort out destSymbol e w a w1 hc hS]
        exact Or.inr (Or.inr ⟨a, _, w1, rfl, rfl⟩)
      · rw [detail.apply_disabled_some S abort out destSymbol e w a w1 hc hS]
        exact Or.inr (Or.inr ⟨a, _, w1, rfl, rfl⟩)
  · have h0 : e.mBase.symbolPtrCache ≠ 0 := fun h => hc (Or.inl h)
    have h1 : e.mBase.symbolPtrCache ≠ 1 := fun h => hc (Or.inr h)
    rw [detail.apply_hit S abort out destSymbol e w h0 h1]
    exact Or.inl ⟨rfl, rfl, h0⟩

/-- C6 (non-aborting miss).  For every table, outside world and key whose hash
no descriptor carries, `lookupSymbolFromDb(key, abort = false)` returns the null
address 0, makes no strategy invocation, and leaves the table, hence every
cache field, unchanged. -/
theorem C6_non_aborting_miss {W : Type} (hashMurmur : String → Nat) (S : detail.Strategies W)
    (gSymbols : List detail.SymbolEntry) (w : W) (symbol : detail.DestSymbol)
    (habs : ∀ e ∈ gSymbols, e.getNameMurmur32 ≠ destHash hashMurmur symbol) :
    lookupSymbolFromDb hashMurmur S gSymbols w symbol false =
      ⟨[], Outcome.returned (0, gSymbols, w)⟩ := by
  rw [lookupSymbolFromDb_miss hashMurmur S gSymbols w symbol false
    (detail.lookupSymbolByHash_absent gSymbols _ habs)]
  rfl

/-- Instance of C6: the name `"four"` hashes to 4, which the sample table does
not hold. -/
theorem C6_non_aborting_miss_witness :
    (∀ e ∈ detail.sampleTable,
        e.getNameMurmur32 ≠ destHash detail.sampleHash (detail.DestSymbol.name "four")) ∧
      lookupSymbolFromDb detail.sampleHash (detail.constStrategies 4096) detail.sampleTable ()
          (detail.DestSymbol.name "four") false =
        ⟨[], Outcome.returned (0, detail.sampleTable, ())⟩ :=
  ⟨by decide,
    C6_non_aborting_miss detail.sampleHash (detail.constStrategies 4096) detail.sampleTable ()
      (detail.DestSymbol.name "four") (by decide)⟩

/-- C7 (aborting miss).  For every key whose hash no descriptor of the table
carries, `lookupSymbolFromDb` aborts the process if and only if the abort flag
is true; with the flag set the abort is the `UnresolvedSymbol` one, no address
is returned, and in either case no strategy is invoked. -/
theorem C7_aborting_miss {W : Type} (hashMurmur : String → Nat) (S : detail.Strategies W)
    (gSymbols : List detail.SymbolEntry) (w : W) (symbol : detail.DestSymbol) (abort : Bool)
    (habs : ∀ e ∈ gSymbols, e.getNameMurmur32 ≠ destHash hashMurmur symbol) :
    ((∃ diag, (lookupSymbolFromDb hashMurmur S gSymbols w symbol abort).outcome =
        Outcome.aborted diag) ↔ abort = true) ∧
      (abort = true →
        (lookupSymbolFromDb hashMurmur S gSymbols w symbol abort).outcome =
          Outcome.aborted (Diag.unresolvedSymbol symbol) ∧
        ∀ r, (lookupSymbolFromDb hashMurmur S gSymbols w symbol abort).outcome ≠
          Outcome.returned r) ∧
      (lookupSymbolFromDb hashMurmur S gSymbols w symbol abort).calls = [] := by
  rw [lookupSymbolFromDb_miss hashMurmur S gSymbols w symbol abort
    (detail.lookupSymbolByHash_absent gSymbols _ habs)]
  cases abort <;> simp

/-- Instance of C7: the hash 5 is not in the sample table and the flag is set. -/
theorem C7_aborting_miss_witness :
    (∀ e ∈ detail.sampleTable,
        e.getNameMurmur32 ≠ destHash detail.sampleHash (detail.DestSymbol.murmur 5)) ∧
      (lookupSymbolFromDb detail.sampleHash (detail.constStrategies 4096) detail.sampleTable ()
          (detail.DestSymbol.murmur 5) true).outcome =
        Outcome.aborted (Diag.unresolvedSymbol (detail.DestSymbol.murmur 5)) :=
  ⟨by decide,
    ((C7_aborting_miss detail.sampleHash (detail.constStrategies 4096) detail.sampleTable ()
      (detail.DestSymbol.murmur 5) true (by decide)).2.1 rfl).1⟩

/-- C8 (failure modes of a non-aborting lookup), amended.  For every lookup made
with `abort = false`: a key that matches no descriptor surfaces as a returned
null address; every strategy invocation the lookup makes receives the abort
flag `true`, not the caller's flag, with `*out` initialised to 0 and the
caller's key; the lookup aborts only from inside that one strategy invocation,
and when it returns after an invocation it returns what the strategy handed
back. -/
theorem C8_non_aborting_lookup {W : Type} (hashMurmur : String → Nat) (S : detail.Strategies W)
    (gSymbols : List detail.SymbolEntry) (w : W) (symbol : detail.DestSymbol) :
    ((∀ e ∈ gSymbols, e.getNameMurmur32 ≠ destHash hashMurmur symbol) →
        lookupSymbolFromDb hashMurmur S gSymbols w symbol false =
          ⟨[], Outcome.returned (0, gSymbols, w)⟩) ∧
      (∀ inv ∈ (lookupSymbolFromDb hashMurmur S gSymbols w symbol false).calls,
        inv.abort = true ∧ inv.out = 0 ∧ inv.destSymbol = symbol) ∧
      (∀ diag, (lookupSymbolFromDb hashMurmur S gSymbols w symbol false).outcome =
          Outcome.aborted diag →
        diag = Diag.inStrategy ∧
          (lookupSymbolFromDb hashMurmur S gSymbols w symbol false).calls.map
            (fun inv => inv.result) = [none]) ∧
      (∀ r, (lookupSymbolFromDb hashMurmur S gSymbols w symbol false).outcome =
          Outcome.returned r →
        ∀ inv ∈ (lookupSymbolFromDb hashMurmur S gSymbols w symbol false).calls,
          inv.result = some r.1) := by
  refine ⟨fun habs => ?_, ?_⟩
  · rw [lookupSymbolFromDb_miss hashMurmur S gSymbols w symbol false
      (detail.lookupSymbolByHash_absent gSymbols _ habs)]
    rfl
  · cases hl : detail.lookupSymbolByHash gSymbols (destHash hashMurmur symbol) with
    | none =>
      rw [lookupSymbolFromDb_miss hashMurmur S gSymbols w symbol false hl]
      simp
    | some idx =>
      obtain ⟨e, _, _, heq⟩ := lookupSymbolFromDb_found hashMurmur S gSymbols w symbol false idx hl
      rw [heq]
      rcases detail.apply_cases S true 0 symbol e w with
        ⟨hc, ho, _⟩ | ⟨hc, ho⟩ | ⟨a, e1, w1, hc, ho⟩ <;> rw [ho, hc] <;> simp

/-- Instance of C8 as amended: a key missing from the sample table. -/
theorem C8_non_aborting_lookup_witness :
    (∀ e ∈ detail.sampleTable,
        e.getNameMurmur32 ≠ destHash detail.sampleHash (detail.DestSymbol.murmur 5)) ∧
      lookupSymbolFromDb detail.sampleHash detail.failingStrategies detail.sampleTable ()
          (detail.DestSymbol.murmur 5) false =
        ⟨[], Outcome.returned (0, detail.sampleTable, ())⟩ :=
  ⟨by decide,
    (C8_non_aborting_lookup detail.sampleHash detail.failingStrategies detail.sampleTable ()
      (detail.DestSymbol.murmur 5)).1 (by decide)⟩

/-- C8 as stated fails for a descriptor that is found but cannot be resolved:
the lookup is made with `abort = false`, the strategy is nevertheless invoked
with `abort = true`, and a strategy that follows its flag aborts the process
instead of leaving a null address. -/
theorem C8_counterexample :
    lookupSymbolFromDb detail.sampleHash detail.failingStrategies detail.sampleTable ()
        (detail.DestSymbol.murmur 3) false =
      ⟨[⟨detail.Member.mDynamic, true, 0, detail.DestSymbol.murmur 3, none⟩],
        Outcome.aborted Diag.inStrategy⟩ := by
  decide

/-- C9 (null only when non-aborting), amended.  A lookup that returns the
address 0 although none of its strategy invocations handed back 0 was made
with `abort = false` for a key that matches no descriptor; so a lookup made
with `abort = true` that returns does not return 0 unless the strategy it
invoked itself returned with 0 in `*out`. -/
theorem C9_null_only_when_non_aborting {W : Type} (hashMurmur : String → Nat)
    (S : detail.Strategies W) (gSymbols : List detail.SymbolEntry) (w : W)
    (symbol : detail.DestSymbol) (abort : Bool) (gSymbols1 : List detail.SymbolEntry) (w1 : W)
    (hret : (lookupSymbolFromDb hashMurmur S gSymbols w symbol abort).outcome =
      Outcome.returned (0, gSymbols1, w1))
    (hres : ∀ inv ∈ (lookupSymbolFromDb hashMurmur S gSymbols w symbol abort).calls,
      inv.result ≠ some 0) :
    abort = false ∧
      detail.lookupSymbolByHash gSymbols (destHash hashMurmur symbol) = none := by
  cases hl : detail.lookupSymbolByHash gSymbols (destHash hashMurmur symbol) with
  | none =>
    rw [lookupSymbolFromDb_miss hashMurmur S gSymbols w symbol abort hl] at hret
    cases abort
    · exact ⟨rfl, rfl⟩
    · simp at hret
  | some idx =>
    exfalso
    obtain ⟨e, _, _, heq⟩ := lookupSymbolFromDb_found hashMurmur S gSymbols w symbol abort idx hl
    rw [heq] at hret hres
    rcases detail.apply_cases S true 0 symbol e w with
      ⟨hc, ho, h0⟩ | ⟨hc, ho⟩ | ⟨a, e1, w2, hc, ho⟩
    · rw [ho] at hret
      simp only [Outcome.returned.injEq, Prod.mk.injEq] at hret
      exact h0 hret.1
    · rw [ho] at hret
      simp at hret
    · rw [ho] at hret hres
      rw [hc] at hres
      simp only [Outcome.returned.injEq, Prod.mk.injEq] at hret
      simp only [List.mem_singleton, forall_eq] at hres
      exact hres (by rw [hret.1])

/-- Instance of C9 as amended: a non-aborting lookup of a hash missing from the
sample table returns 0. -/
theorem C9_null_only_when_non_aborting_witness :
    (lookupSymbolFromDb detail.sampleHash (detail.constStrategies 4096) detail.sampleTable ()
        (detail.DestSymbol.murmur 5) false).outcome =
        Outcome.returned (0, detail.sampleTable, ()) ∧
      false = false ∧
      detail.lookupSymbolByHash detail.sampleTable
        (destHash detail.sampleHash (detail.DestSymbol.murmur 5)) = none :=
  ⟨by decide,
    C9_null_only_when_non_aborting detail.sampleHash (detail.constStrategies 4096)
      detail.sampleTable () (detail.DestSymbol.murmur 5) false detail.sampleTable ()
      (by decide) (by decide)⟩

/-- C9 as stated fails for a strategy that returns without writing `*out` even
though the abort flag is set: the lookup is made with `abort = true`, finds the
descriptor, and returns the null address 0. -/
theorem C9_counterexample :
    lookupSymbolFromDb detail.sampleHash detail.silentStrategies detail.sampleTable ()
        (detail.DestSymbol.murmur 3) true =
      ⟨[⟨detail.Member.mDynamic, true, 0, detail.DestSymbol.murmur 3, some 0⟩],
        Outcome.returned (0, detail.sampleTable, ())⟩ := by
  decide

end hk.sail

/-! ## Version gating -/

namespace hk.sail.detail

theorem isVersion_iff_div_mod (gVersions : Nat → Nat) (s : SymbolVersioned) (m : Nat) :
    s.isVersion gVersions m = true ↔ s.versionsBitset / 2 ^ gVersions m % 2 = 1 := by
  unfold SymbolVersioned.isVersion
  rw [Nat.testBit_to_div_mod]
  simp

/-- C11 (version gating).  For every versioned descriptor with a 64-bit bitset
`B` and every module index `m`, `isVersion(m)` is true iff bit `v` of `B` is
set, where `v = gVersions[m]`; ordinals of 64 or more are rejected; the bitset
`{2,5}` accepts exactly the active versions 2 and 5; and
`SymbolImmediate::isVersionValid` is this test at the descriptor's own
`moduleIdx`. -/
theorem C11_version_gating (gVersions : Nat → Nat) (s : SymbolVersioned) (m : Nat)
    (hB : s.versionsBitset < 2 ^ 64) :
    (s.isVersion gVersions m = true ↔ s.versionsBitset / 2 ^ gVersions m % 2 = 1) ∧
      (64 ≤ gVersions m → s.isVersion gVersions m = false) ∧
      (s.versionsBitset = 2 ^ 2 + 2 ^ 5 →
        (s.isVersion gVersions m = true ↔ gVersions m = 2 ∨ gVersions m = 5)) ∧
      (∀ imm : SymbolImmediate, imm.toSymbolVersioned = s →
        imm.isVersionValid gVersions = s.isVersion gVersions imm.moduleIdx) := by
  refine ⟨isVersion_iff_div_mod gVersions s m, ?_, ?_, ?_⟩
  · intro hv
    unfold SymbolVersioned.isVersion
    apply Nat.testBit_eq_false_of_lt
    calc s.versionsBitset < 2 ^ 64 := hB
      _ ≤ 2 ^ gVersions m := Nat.pow_le_pow_right (by decide) hv
  · intro h36
    rw [isVersion_iff_div_mod, h36]
    by_cases hv : gVersions m < 6
    · generalize gVersions m = v at hv ⊢
      interval_cases v <;> simp
    · have hlt : 2 ^ 2 + 2 ^ 5 < 2 ^ gVersions m :=
        calc 2 ^ 2 + 2 ^ 5 < 2 ^ 6 := by decide
          _ ≤ 2 ^ gVersions m := Nat.pow_le_pow_right (by decide) (by omega)
      rw [Nat.div_eq_of_lt hlt]
      constructor
      · intro h; simp at h
      · intro h; omega
  · intro imm himm
    unfold SymbolImmediate.isVersionValid
    rw [himm]

/-- Instance of C11: the bitset `{2,5}` with active version 5 for module 0. -/
theorem C11_version_gating_witness :
    (36 : Nat) < 2 ^ 64 ∧
      (SymbolVersioned.isVersion (fun _ => 5) ⟨⟨7, SymbolType.Type_Immediate, 0⟩, 36⟩ 0 = true ↔
        36 / 2 ^ 5 % 2 = 1) ∧
      SymbolVersioned.isVersion (fun _ => 5) ⟨⟨7, SymbolType.Type_Immediate, 0⟩, 36⟩ 0 = true ∧
      SymbolVersioned.isVersion (fun _ => 3) ⟨⟨7, SymbolType.Type_Immediate, 0⟩, 36⟩ 0 = false ∧
      SymbolVersioned.isVersion (fun _ => 64) ⟨⟨7, SymbolType.Type_Immediate, 0⟩, 36⟩ 0 = false :=
  ⟨by decide,
    (C11_version_gating (fun _ => 5) ⟨⟨7, SymbolType.Type_Immediate, 0⟩, 36⟩ 0 (by decide)).1,
    by decide, by decide, by decide⟩

end hk.sail.detail

/-! ## Binary layout -/

namespace hk.sail.detail.layout

/-- C13 (fixed slot size).  Under the 64-bit layout rules (8-byte pointer,
natural alignment) `cSymbolEntrySize`, the maximum of the sizes of the six
variant structs, is exactly 32 bytes; each of `SymbolDataBlock`,
`SymbolDynamic`, `SymbolImmediate`, `SymbolReadADRPGlobal`, `SymbolArithmetic`
and `SymbolMultipleCandidate` is 32 bytes, so none is larger than the slot. -/
theorem C13_fixed_slot_size :
    cSymbolEntrySize = 32 ∧
      SymbolDataBlock.size = 32 ∧ SymbolDynamic.size = 32 ∧ SymbolImmediate.size = 32 ∧
      SymbolReadADRPGlobal.size = 32 ∧ SymbolArithmetic.size = 32 ∧
      SymbolMultipleCandidate.size = 32 ∧
      ∀ v ∈ variants, v.size ≤ cSymbolEntrySize := by
  decide

/-- Instance of C13: `SymbolDataBlock`, the variant with the most members, fits
the slot. -/
theorem C13_fixed_slot_size_witness :
    SymbolDataBlock ∈ variants ∧ SymbolDataBlock.size ≤ cSymbolEntrySize :=
  ⟨by decide, C13_fixed_slot_size.2.2.2.2.2.2.2 SymbolDataBlock (by decide)⟩

/-- C14 (field offsets).  Under the 64-bit layout rules, in each of the six
variants `destNameMurmur` is at offset 0 (4 bytes), `type` at 4 (4 bytes) and
`symbolPtrCache` at 8 (8 bytes); in `SymbolMultipleCandidate`
`offsetToCandidates` is at 16 and `numCandidates` at 24; in each variant derived
from `SymbolVersioned` `versionsBitset` is at 16 (8 bytes); and `srcNameMurmur`
of `SymbolArithmetic` and of `SymbolReadADRPGlobal` is at 24 (4 bytes). -/
theorem C14_field_offsets :
    (∀ v ∈ Symbol :: variants,
        offsetOf v "destNameMurmur" = some 0 ∧ sizeOfMember v "destNameMurmur" = some 4 ∧
        offsetOf v "type" = some 4 ∧ sizeOfMember v "type" = some 4 ∧
        offsetOf v "symbolPtrCache" = some 8 ∧ sizeOfMember v "symbolPtrCache" = some 8) ∧
      offsetOf SymbolMultipleCandidate "offsetToCandidates" = some 16 ∧
      offsetOf SymbolMultipleCandidate "numCandidates" = some 24 ∧
      (∀ v ∈ versionedVariants,
        offsetOf v "versionsBitset" = some 16 ∧ sizeOfMember v "versionsBitset" = some 8) ∧
      offsetOf SymbolArithmetic "srcNameMurmur" = some 24 ∧
      sizeOfMember SymbolArithmetic "srcNameMurmur" = some 4 ∧
      offsetOf SymbolReadADRPGlobal "srcNameMurmur" = some 24 ∧
      sizeOfMember SymbolReadADRPGlobal "srcNameMurmur" = some 4 := by
  decide

/-- Instance of C14: the header of `SymbolDynamic` and the bitset of
`SymbolImmediate`. -/
theorem C14_field_offsets_witness :
    SymbolDynamic ∈ Symbol :: variants ∧ offsetOf SymbolDynamic "symbolPtrCache" = some 8 ∧
      SymbolImmediate ∈ versionedVariants ∧
      offsetOf SymbolImmediate "versionsBitset" = some 16 :=
  ⟨by decide, (C14_field_offsets.1 SymbolDynamic (by decide)).2.2.2.2.1, by decide,
    (C14_field_offsets.2.2.2.1 SymbolImmediate (by decide)).1⟩

end hk.sail.detail.layout

/-! ## Dispatch, and the two lookup modes -/

namespace hk.sail

/-- C15 (tag dispatch).  On a descriptor whose cache field is 0 or 1, `apply`
makes exactly one strategy invocation: of the union member named by the tag,
with the caller's abort flag, the caller's `*out` and the caller's key; no
other member's strategy is invoked. -/
theorem C15_tag_dispatch {W : Type} (S : detail.Strategies W) (abort : Bool) (out : Nat)
    (destSymbol : detail.DestSymbol) (e : detail.SymbolEntry) (w : W)
    (hc : e.mBase.symbolPtrCache = 0 ∨ e.mBase.symbolPtrCache = 1) :
    (e.apply S abort out destSymbol w).calls =
        [⟨detail.namedMember e.mBase.type, abort, out, destSymbol,
          (S (detail.namedMember e.mBase.type) abort out destSymbol e w).map Prod.fst⟩] ∧
      (e.apply S abort out destSymbol w).calls.length = 1 ∧
      ∀ inv ∈ (e.apply S abort out destSymbol w).calls,
        inv.member = detail.namedMember e.mBase.type ∧ inv.abort = abort ∧ inv.out = out ∧
          inv.destSymbol = destSymbol := by
  rw [← detail.switchMember_eq]
  cases hS : S e.switchMember abort out destSymbol e w with
  | none =>
    rw [detail.apply_none S abort out destSymbol e w hc hS]
    simp
  | some r =>
    obtain ⟨a, w1⟩ := r
    rcases hc with hc | hc
    · rw [detail.apply_miss_some S abort out destSymbol e w a w1 hc hS]
      simp
    · rw [detail.apply_disabled_some S abort out destSymbol e w a w1 hc hS]
      simp

/-- Instance of C15: a disabled ReadADRPGlobal descriptor. -/
theorem C15_tag_dispatch_witness :
    ((detail.mkEntry 9 detail.SymbolType.Type_ReadADRPGlobal 1).mBase.symbolPtrCache = 0 ∨
        (detail.mkEntry 9 detail.SymbolType.Type_ReadADRPGlobal 1).mBase.symbolPtrCache = 1) ∧
      ((detail.mkEntry 9 detail.SymbolType.Type_ReadADRPGlobal 1).apply
          (detail.constStrategies 4096) false 5 (detail.DestSymbol.name "sym") ()).calls =
        [⟨detail.Member.mReadADRPGlobal, false, 5, detail.DestSymbol.name "sym", some 4096⟩] :=
  ⟨by decide,
    (C15_tag_dispatch (detail.constStrategies 4096) false 5 (detail.DestSymbol.name "sym")
      (detail.mkEntry 9 detail.SymbolType.Type_ReadADRPGlobal 1) () (by decide)).1⟩

/-- A lookup whose key is found is the resolution of the found entry. -/
theorem lookupSymbolFromDb_found_eq {W : Type} (hashMurmur : String → Nat)
    (S : detail.Strategies W) (gSymbols : List detail.SymbolEntry) (w : W)
    (symbol : detail.DestSymbol) (abort : Bool) (idx : Nat)
    (hl : detail.lookupSymbolByHash gSymbols (destHash hashMurmur symbol) = some idx) :
    ∃ e, gSymbols[idx]? = some e ∧ e.getNameMurmur32 = destHash hashMurmur symbol ∧
      lookupSymbolFromDb hashMurmur S gSymbols w symbol abort =
        resolveFound S gSymbols w symbol idx e := by
  obtain ⟨e, he, hh, heq⟩ := lookupSymbolFromDb_found hashMurmur S gSymbols w symbol abort idx hl
  exact ⟨e, he, hh, by rw [heq]; rfl⟩

/-- Every strategy invocation of a resolution receives the abort flag `true`,
`*out = 0` and the key of the lookup. -/
theorem resolveFound_calls {W : Type} (S : detail.Strategies W)
    (gSymbols : List detail.SymbolEntry) (w : W) (symbol : detail.DestSymbol) (idx : Nat)
    (e : detail.SymbolEntry) :
    ∀ inv ∈ (resolveFound S gSymbols w symbol idx e).calls,
      inv.abort = true ∧ inv.out = 0 ∧ inv.destSymbol = symbol := by
  unfold resolveFound
  rcases detail.apply_cases S true 0 symbol e w with
    ⟨hc, ho, _⟩ | ⟨hc, ho⟩ | ⟨a, e1, w1, hc, ho⟩ <;> rw [ho, hc] <;> simp

/-- C12 (name-based and precomputed lookup agree).  For every table, name `s`
and abort flag, the name-based lookup searches the table with `hashMurmur(s)`
and so selects the same descriptor, or the same absence, as the precomputed
lookup of `h = hashMurmur(s)`: when the hash is absent both return 0 (flag
clear) or both abort with `UnresolvedSymbol` (flag set), the diagnostic carrying
the name in one mode and the hash in the other; when it is present both
resolve the same entry at the same index. -/
theorem C12_name_and_precalc_agree {W : Type} (hashMurmur : String → Nat)
    (S : detail.Strategies W) (gSymbols : List detail.SymbolEntry) (w : W) (s : String)
    (abort : Bool) :
    destHash hashMurmur (detail.DestSymbol.name s) =
        destHash hashMurmur (detail.DestSymbol.murmur (hashMurmur s)) ∧
      (detail.lookupSymbolByHash gSymbols (hashMurmur s) = none →
        lookupSymbolFromDb hashMurmur S gSymbols w (detail.DestSymbol.name s) abort =
            (if abort then ⟨[], Outcome.aborted (Diag.unresolvedSymbol (detail.DestSymbol.name s))⟩
              else ⟨[], Outcome.returned (0, gSymbols, w)⟩) ∧
          lookupSymbolFromDb hashMurmur S gSymbols w
              (detail.DestSymbol.murmur (hashMurmur s)) abort =
            (if abort then
                ⟨[], Outcome.aborted
                  (Diag.unresolvedSymbol (detail.DestSymbol.murmur (hashMurmur s)))⟩
              else ⟨[], Outcome.returned (0, gSymbols, w)⟩)) ∧
      (∀ idx, detail.lookupSymbolByHash gSymbols (hashMurmur s) = some idx →
        ∃ e, gSymbols[idx]? = some e ∧ e.getNameMurmur32 = hashMurmur s ∧
          lookupSymbolFromDb hashMurmur S gSymbols w (detail.DestSymbol.name s) abort =
            resolveFound S gSymbols w (detail.DestSymbol.name s) idx e ∧
          lookupSymbolFromDb hashMurmur S gSymbols w
              (detail.DestSymbol.murmur (hashMurmur s)) abort =
            resolveFound S gSymbols w (detail.DestSymbol.murmur (hashMurmur s)) idx e) := by
  refine ⟨rfl, ?_, ?_⟩
  · intro hl
    exact ⟨lookupSymbolFromDb_miss hashMurmur S gSymbols w (detail.DestSymbol.name s) abort hl,
      lookupSymbolFromDb_miss hashMurmur S gSymbols w
        (detail.DestSymbol.murmur (hashMurmur s)) abort hl⟩
  · intro idx hl
    obtain ⟨e, he, hh, h1⟩ := lookupSymbolFromDb_found_eq hashMurmur S gSymbols w
      (detail.DestSymbol.name s) abort idx hl
    obtain ⟨e2, he2, _, h2⟩ := lookupSymbolFromDb_found_eq hashMurmur S gSymbols w
      (detail.DestSymbol.murmur (hashMurmur s)) abort idx hl
    rw [he] at he2
    simp only [Option.some.injEq] at he2
    subst he2
    exact ⟨e, he, hh, h1, h2⟩

/-- Instance of C12: the name `"four"`, whose sample hash 4 is not in the sample
table, looked up without the abort flag in both modes. -/
theorem C12_name_and_precalc_agree_witness :
    detail.lookupSymbolByHash detail.sampleTable (detail.sampleHash "four") = none ∧
      lookupSymbolFromDb detail.sampleHash (detail.constStrategies 4096) detail.sampleTable ()
          (detail.DestSymbol.name "four") false =
        lookupSymbolFromDb detail.sampleHash (detail.constStrategies 4096) detail.sampleTable ()
          (detail.DestSymbol.murmur (detail.sampleHash "four")) false :=
  ⟨by decide,
    ((C12_name_and_precalc_agree detail.sampleHash (detail.constStrategies 4096)
        detail.sampleTable () "four" false).2.1 (by decide)).1.trans
      ((C12_name_and_precalc_agree detail.sampleHash (detail.constStrategies 4096)
        detail.sampleTable () "four" false).2.1 (by decide)).2.symm⟩

end hk.sail

/-! ## Lookups of keys that are present, and what lookups leave unchanged -/

namespace hk.sail

/-- Replacing an entry by one with the same image under `f` does not change the
image of the list. -/
theorem map_set_same {α β : Type} (f : α → β) (l : List α) (idx : Nat) (e e1 : α)
    (he : l[idx]? = some e) (hf : f e1 = f e) : (l.set idx e1).map f = l.map f := by
  induction l generalizing idx with
  | nil => rfl
  | cons a l ih =>
    cases idx with
    | zero =>
      simp only [List.getElem?_cons_zero, Option.some.injEq] at he
      simp [List.set, hf, he]
    | succ k =>
      simp only [List.getElem?_cons_succ] at he
      simp [List.set, ih k he]

/-- Writing back the entry that is already there leaves the list as it is. -/
theorem set_same {α : Type} (l : List α) (idx : Nat) (e : α) (he : l[idx]? = some e) :
    l.set idx e = l := by
  have := map_set_same (fun x => x) l idx e e he rfl
  simpa using this

/-- The search sees the table through the list of its hashes only. -/
theorem detail.lookupSymbolByHash_congr (t g : List detail.SymbolEntry) (h : Nat)
    (hmap : t.map detail.SymbolEntry.getNameMurmur32 = g.map detail.SymbolEntry.getNameMurmur32) :
    detail.lookupSymbolByHash t h = detail.lookupSymbolByHash g h := by
  have hlen : t.length = g.length := by
    have := congrArg List.length hmap
    simpa using this
  have hget : detail.getNameMurmur32At t = detail.getNameMurmur32At g := by
    funext i
    have hi : (t.map detail.SymbolEntry.getNameMurmur32)[i]? =
        (g.map detail.SymbolEntry.getNameMurmur32)[i]? := by rw [hmap]
    simp only [List.getElem?_map] at hi
    unfold detail.getNameMurmur32At
    cases ht : t[i]? with
    | none =>
      cases hg : g[i]? with
      | none => rfl
      | some b => rw [ht, hg] at hi; simp at hi
    | some a =>
      cases hg : g[i]? with
      | none => rw [ht, hg] at hi; simp at hi
      | some b =>
        rw [ht, hg] at hi
        simp only [Option.map_some', Option.some.injEq] at hi
        exact hi
  unfold detail.lookupSymbolByHash
  rw [hget, hlen]

/-- A returning `apply` call leaves the descriptor as it was or stores `*out`
into its cache field. -/
theorem detail.apply_frame {W : Type} (S : detail.Strategies W) (abort : Bool) (out : Nat)
    (destSymbol : detail.DestSymbol) (e : detail.SymbolEntry) (w : W) (o : Nat)
    (e1 : detail.SymbolEntry) (w1 : W)
    (h : (e.apply S abort out destSymbol w).outcome = some (o, e1, w1)) :
    e1.mBase.destNameMurmur = e.mBase.destNameMurmur ∧ e1.mBase.type = e.mBase.type ∧
      e1.payload = e.payload := by
  rcases detail.apply_outcome_cases S abort out destSymbol e w o e1 w1 h with
    ⟨_, he⟩ | ⟨_, he, _⟩
  · rw [he]
    exact ⟨rfl, rfl, rfl⟩
  · rw [he]
    exact ⟨rfl, rfl, rfl⟩

/-- A returning lookup leaves a table with the same hashes, tags and payloads,
entry by entry. -/
theorem lookupSymbolFromDb_frame {W : Type} (hashMurmur : String → Nat)
    (S : detail.Strategies W) (gSymbols : List detail.SymbolEntry) (w : W)
    (symbol : detail.DestSymbol) (abort : Bool) (r : Nat × List detail.SymbolEntry × W)
    (hret : (lookupSymbolFromDb hashMurmur S gSymbols w symbol abort).outcome =
      Outcome.returned r) :
    r.2.1.map (fun e => (e.mBase.destNameMurmur, e.mBase.type, e.payload)) =
      gSymbols.map (fun e => (e.mBase.destNameMurmur, e.mBase.type, e.payload)) := by
  cases hl : detail.lookupSymbolByHash gSymbols (destHash hashMurmur symbol) with
  | none =>
    rw [lookupSymbolFromDb_miss hashMurmur S gSymbols w symbol abort hl] at hret
    cases abort
    · simp only [Bool.false_eq_true, if_false, Outcome.returned.injEq] at hret
      rw [← hret]
    · simp at hret
  | some idx =>
    obtain ⟨e, he, _, heq⟩ := lookupSymbolFromDb_found_eq hashMurmur S gSymbols w symbol abort
      idx hl
    rw [heq] at hret
    unfold resolveFound at hret
    cases ho : (e.apply S true 0 symbol w).outcome with
    | none =>
      rw [ho] at hret
      simp at hret
    | some p =>
      obtain ⟨o, e1, w1⟩ := p
      rw [ho] at hret
      simp only [Outcome.returned.injEq] at hret
      rw [← hret]
      obtain ⟨h1, h2, h3⟩ := detail.apply_frame S true 0 symbol e w o e1 w1 ho
      exact map_set_same _ gSymbols idx e e1 he (by simp [h1, h2, h3])

/-- The same frame property along a run of lookups. -/
theorem lookupSeq_frame {W : Type} (hashMurmur : String → Nat) (S : detail.Strategies W)
    (qs : List (detail.DestSymbol × Bool)) (gSymbols : List detail.SymbolEntry) (w : W) :
    ∀ t ∈ lookupSeq hashMurmur S qs gSymbols w,
      t.map (fun e => (e.mBase.destNameMurmur, e.mBase.type, e.payload)) =
        gSymbols.map (fun e => (e.mBase.destNameMurmur, e.mBase.type, e.payload)) := by
  induction qs generalizing gSymbols w with
  | nil => intro t ht; simp [lookupSeq] at ht
  | cons q qs ih =>
    intro t ht
    unfold lookupSeq at ht
    cases ho : (lookupSymbolFromDb hashMurmur S gSymbols w q.1 q.2).outcome with
    | aborted d =>
      rw [ho] at ht
      simp at ht
    | returned r =>
      rw [ho] at ht
      have hr := lookupSymbolFromDb_frame hashMurmur S gSymbols w q.1 q.2 r ho
      simp only [List.mem_cons] at ht
      rcases ht with ht | ht
      · rw [ht]; exact hr
      · rw [ih r.2.1 r.2.2 t ht, hr]

end hk.sail

namespace hk.sail

/-- From the frame of a table to its list of hashes, its list of tags and its
length. -/
theorem frame_projections (t g : List detail.SymbolEntry)
    (h : t.map (fun e => (e.mBase.destNameMurmur, e.mBase.type, e.payload)) =
      g.map (fun e => (e.mBase.destNameMurmur, e.mBase.type, e.payload))) :
    t.length = g.length ∧
      t.map detail.SymbolEntry.getNameMurmur32 = g.map detail.SymbolEntry.getNameMurmur32 ∧
      t.map detail.SymbolEntry.getType = g.map detail.SymbolEntry.getType := by
  refine ⟨?_, ?_, ?_⟩
  · have := congrArg List.length h
    simpa using this
  · have := congrArg (List.map (fun p : Nat × detail.SymbolType × List Nat => p.1)) h
    simpa [List.map_map, Function.comp_def, detail.SymbolEntry.getNameMurmur32] using this
  · have := congrArg (List.map (fun p : Nat × detail.SymbolType × List Nat => p.2.1)) h
    simpa [List.map_map, Function.comp_def, detail.SymbolEntry.getType] using this

/-- C16 (resolution is always abort-on-failure).  For every key that the table
search finds, `lookupSymbolFromDb` resolves the found descriptor with the abort
flag `true` whatever flag the caller passed: the run with `abort = true` and the
run with `abort = false` give the same invocations, the same outcome (same
returned address or same abort) and the same final table, and every strategy
invocation receives `abort = true`.  In a table of fewer than `2^31` entries
sorted ascending by hash without duplicates this holds for every key whose hash
is carried by an entry, and that entry is the one resolved. -/
theorem C16_resolution_always_aborting {W : Type} (hashMurmur : String → Nat)
    (S : detail.Strategies W) (gSymbols : List detail.SymbolEntry) (w : W)
    (symbol : detail.DestSymbol) :
    (∀ idx, detail.lookupSymbolByHash gSymbols (destHash hashMurmur symbol) = some idx →
        lookupSymbolFromDb hashMurmur S gSymbols w symbol true =
            lookupSymbolFromDb hashMurmur S gSymbols w symbol false ∧
          ∀ abort, ∀ inv ∈ (lookupSymbolFromDb hashMurmur S gSymbols w symbol abort).calls,
            inv.abort = true) ∧
      (gSymbols.length < 2 ^ 31 →
        List.Pairwise (fun a b => a ≤ b) (gSymbols.map detail.SymbolEntry.getNameMurmur32) →
        (gSymbols.map detail.SymbolEntry.getNameMurmur32).Nodup →
        ∀ e ∈ gSymbols, e.getNameMurmur32 = destHash hashMurmur symbol →
          lookupSymbolFromDb hashMurmur S gSymbols w symbol true =
              lookupSymbolFromDb hashMurmur S gSymbols w symbol false ∧
            ∃ idx, gSymbols[idx]? = some e ∧
              ∀ abort, lookupSymbolFromDb hashMurmur S gSymbols w symbol abort =
                resolveFound S gSymbols w symbol idx e) := by
  have hgen : ∀ idx, detail.lookupSymbolByHash gSymbols (destHash hashMurmur symbol) = some idx →
      ∃ e, gSymbols[idx]? = some e ∧
        ∀ abort, lookupSymbolFromDb hashMurmur S gSymbols w symbol abort =
          resolveFound S gSymbols w symbol idx e := by
    intro idx hl
    obtain ⟨e, he, _, _⟩ := lookupSymbolFromDb_found_eq hashMurmur S gSymbols w symbol true
      idx hl
    refine ⟨e, he, ?_⟩
    intro abort
    obtain ⟨e2, he2, _, heq⟩ := lookupSymbolFromDb_found_eq hashMurmur S gSymbols w symbol abort
      idx hl
    rw [he] at he2
    simp only [Option.some.injEq] at he2
    rw [heq, he2]
  refine ⟨?_, ?_⟩
  · intro idx hl
    obtain ⟨e, _, hall⟩ := hgen idx hl
    refine ⟨by rw [hall true, hall false], ?_⟩
    intro abort inv hinv
    rw [hall abort] at hinv
    exact (resolveFound_calls S gSymbols w symbol idx e inv hinv).1
  · intro hlen hsorted hnodup e he hh
    have hstrict : List.Pairwise (fun a b => a < b)
        (gSymbols.map detail.SymbolEntry.getNameMurmur32) :=
      List.Sorted.lt_of_le hsorted hnodup
    obtain ⟨idx, hidx⟩ := List.mem_iff_getElem?.mp he
    have hl := detail.lookupSymbolByHash_complete gSymbols (destHash hashMurmur symbol) hlen
      hstrict idx e hidx hh
    obtain ⟨e2, he2, hall⟩ := hgen idx hl
    rw [hidx] at he2
    simp only [Option.some.injEq] at he2
    subst he2
    exact ⟨by rw [hall true, hall false], idx, hidx, hall⟩

/-- Instance of C16: the hash 3 of the sample table, whose strategy follows the
abort flag; both runs abort inside the strategy. -/
theorem C16_resolution_always_aborting_witness :
    detail.lookupSymbolByHash detail.sampleTable
        (destHash detail.sampleHash (detail.DestSymbol.murmur 3)) = some 0 ∧
      lookupSymbolFromDb detail.sampleHash detail.failingStrategies detail.sampleTable ()
          (detail.DestSymbol.murmur 3) true =
        lookupSymbolFromDb detail.sampleHash detail.failingStrategies detail.sampleTable ()
          (detail.DestSymbol.murmur 3) false :=
  ⟨by decide,
    ((C16_resolution_always_aborting detail.sampleHash detail.failingStrategies
      detail.sampleTable () (detail.DestSymbol.murmur 3)).1 0 (by decide)).1⟩

/-- C17 (read-only table except the cache).  A returning `apply` call leaves the
hash, the tag and the payload of its descriptor unchanged; a returning
`lookupSymbolFromDb` call leaves the number of entries and the hash and tag of
every entry unchanged; hence after any run of lookups the table has the same
hashes in the same order, is still sorted without duplicates if it was, and
`lookupSymbolByHash(h)` returns the same entry index as before, for every
`h`. -/
theorem C17_read_only_except_cache {W : Type} (hashMurmur : String → Nat)
    (S : detail.Strategies W) :
    (∀ (abort : Bool) (out : Nat) (destSymbol : detail.DestSymbol) (e : detail.SymbolEntry)
        (w : W) (o : Nat) (e1 : detail.SymbolEntry) (w1 : W),
        (e.apply S abort out destSymbol w).outcome = some (o, e1, w1) →
        e1.mBase.destNameMurmur = e.mBase.destNameMurmur ∧ e1.mBase.type = e.mBase.type ∧
          e1.payload = e.payload) ∧
      (∀ (gSymbols : List detail.SymbolEntry) (w : W) (symbol : detail.DestSymbol)
        (abort : Bool) (r : Nat × List detail.SymbolEntry × W),
        (lookupSymbolFromDb hashMurmur S gSymbols w symbol abort).outcome = Outcome.returned r →
        r.2.1.length = gSymbols.length ∧
          r.2.1.map detail.SymbolEntry.getNameMurmur32 =
            gSymbols.map detail.SymbolEntry.getNameMurmur32 ∧
          r.2.1.map detail.SymbolEntry.getType = gSymbols.map detail.SymbolEntry.getType) ∧
      (∀ (qs : List (detail.DestSymbol × Bool)) (gSymbols : List detail.SymbolEntry) (w : W),
        ∀ t ∈ lookupSeq hashMurmur S qs gSymbols w,
          t.length = gSymbols.length ∧
            t.map detail.SymbolEntry.getNameMurmur32 =
              gSymbols.map detail.SymbolEntry.getNameMurmur32 ∧
            t.map detail.SymbolEntry.getType = gSymbols.map detail.SymbolEntry.getType ∧
            (List.Pairwise (fun a b => a ≤ b)
                (gSymbols.map detail.SymbolEntry.getNameMurmur32) →
              List.Pairwise (fun a b => a ≤ b) (t.map detail.SymbolEntry.getNameMurmur32)) ∧
            ((gSymbols.map detail.SymbolEntry.getNameMurmur32).Nodup →
              (t.map detail.SymbolEntry.getNameMurmur32).Nodup) ∧
            ∀ h, detail.lookupSymbolByHash t h = detail.lookupSymbolByHash gSymbols h) := by
  refine ⟨?_, ?_, ?_⟩
  · intro abort out destSymbol e w o e1 w1 h
    exact detail.apply_frame S abort out destSymbol e w o e1 w1 h
  · intro gSymbols w symbol abort r hret
    exact frame_projections _ _
      (lookupSymbolFromDb_frame hashMurmur S gSymbols w symbol abort r hret)
  · intro qs gSymbols w t ht
    obtain ⟨h1, h2, h3⟩ := frame_projections _ _ (lookupSeq_frame hashMurmur S qs gSymbols w t ht)
    refine ⟨h1, h2, h3, ?_, ?_, ?_⟩
    · intro hs; rw [h2]; exact hs
    · intro hn; rw [h2]; exact hn
    · intro h; exact detail.lookupSymbolByHash_congr t gSymbols h h2

/-- Instance of C17: after resolving the hashes 3 and 12 of the sample table,
the hash 12 is still found at index 2. -/
theorem C17_read_only_except_cache_witness :
    lookupSeq detail.sampleHash (detail.constStrategies 4096)
        [(detail.DestSymbol.murmur 3, true), (detail.DestSymbol.murmur 12, false)]
        detail.sampleTable () =
      [[detail.mkEntry 3 detail.SymbolType.Type_Dynamic 4096,
          detail.mkEntry 7 detail.SymbolType.Type_Immediate 32768,
          detail.mkEntry 12 detail.SymbolType.Type_Arithmetic 0],
        [detail.mkEntry 3 detail.SymbolType.Type_Dynamic 4096,
          detail.mkEntry 7 detail.SymbolType.Type_Immediate 32768,
          detail.mkEntry 12 detail.SymbolType.Type_Arithmetic 4096]] ∧
      detail.lookupSymbolByHash
          [detail.mkEntry 3 detail.SymbolType.Type_Dynamic 4096,
            detail.mkEntry 7 detail.SymbolType.Type_Immediate 32768,
            detail.mkEntry 12 detail.SymbolType.Type_Arithmetic 4096] 12 =
        detail.lookupSymbolByHash detail.sampleTable 12 :=
  ⟨by decide,
    ((C17_read_only_except_cache detail.sampleHash (detail.constStrategies 4096)).2.2
      [(detail.DestSymbol.murmur 3, true), (detail.DestSymbol.murmur 12, false)]
      detail.sampleTable ()
      [detail.mkEntry 3 detail.SymbolType.Type_Dynamic 4096,
        detail.mkEntry 7 detail.SymbolType.Type_Immediate 32768,
        detail.mkEntry 12 detail.SymbolType.Type_Arithmetic 4096] (by decide)).2.2.2.2.2 12⟩

/-- C18 (a failed resolution is not memoized).  When `lookupSymbolFromDb` finds a
descriptor whose cache field is 0 and the dispatched strategy returns without
writing `*out`, which `lookupSymbolFromDb` initialised to 0, the lookup returns
0 and leaves the table, the cache field of that descriptor included, as it
was; the next lookup of the same key, with either flag, invokes the strategy
again. -/
theorem C18_failed_resolution_not_memoized {W : Type} (hashMurmur : String → Nat)
    (S : detail.Strategies W) (gSymbols : List detail.SymbolEntry) (w : W)
    (symbol : detail.DestSymbol) (abort : Bool) (idx : Nat) (e : detail.SymbolEntry) (w1 : W)
    (hl : detail.lookupSymbolByHash gSymbols (destHash hashMurmur symbol) = some idx)
    (he : gSymbols[idx]? = some e) (h0 : e.mBase.symbolPtrCache = 0)
    (hS : S (detail.namedMember e.mBase.type) true 0 symbol e w = some (0, w1)) :
    lookupSymbolFromDb hashMurmur S gSymbols w symbol abort =
        ⟨[⟨detail.namedMember e.mBase.type, true, 0, symbol, some 0⟩],
          Outcome.returned (0, gSymbols, w1)⟩ ∧
      ∀ abort2, (lookupSymbolFromDb hashMurmur S gSymbols w1 symbol abort2).calls =
        [⟨detail.namedMember e.mBase.type, true, 0, symbol,
          (S (detail.namedMember e.mBase.type) true 0 symbol e w1).map Prod.fst⟩] := by
  rw [← detail.switchMember_eq] at hS ⊢
  have hfound : ∀ (a : Bool) (w2 : W), lookupSymbolFromDb hashMurmur S gSymbols w2 symbol a =
      resolveFound S gSymbols w2 symbol idx e := by
    intro a w2
    obtain ⟨e2, he2, _, heq⟩ := lookupSymbolFromDb_found_eq hashMurmur S gSymbols w2 symbol a
      idx hl
    rw [he] at he2
    simp only [Option.some.injEq] at he2
    rw [heq, he2]
  have hsame : e.setCache 0 = e := by
    cases e with
    | mk b p =>
      cases b with
      | mk h t c =>
        simp only at h0
        subst h0
        rfl
  refine ⟨?_, ?_⟩
  · rw [hfound abort w]
    unfold resolveFound
    rw [detail.apply_miss_some S true 0 symbol e w 0 w1 h0 hS]
    simp only
    rw [hsame, set_same gSymbols idx e he]
  · intro abort2
    rw [hfound abort2 w1]
    unfold resolveFound
    cases hS2 : S e.switchMember true 0 symbol e w1 with
    | none =>
      rw [detail.apply_none S true 0 symbol e w1 (Or.inl h0) hS2]
      rfl
    | some p =>
      obtain ⟨a, w2⟩ := p
      rw [detail.apply_miss_some S true 0 symbol e w1 a w2 h0 hS2]
      rfl

/-- Instance of C18: the hash 3 of the sample table with strategies that never
write `*out`. -/
theorem C18_failed_resolution_not_memoized_witness :
    lookupSymbolFromDb detail.sampleHash detail.silentStrategies detail.sampleTable ()
        (detail.DestSymbol.murmur 3) false =
      ⟨[⟨detail.Member.mDynamic, true, 0, detail.DestSymbol.murmur 3, some 0⟩],
        Outcome.returned (0, detail.sampleTable, ())⟩ :=
  (C18_failed_resolution_not_memoized detail.sampleHash detail.silentStrategies
    detail.sampleTable () (detail.DestSymbol.murmur 3) false 0
    (detail.mkEntry 3 detail.SymbolType.Type_Dynamic 0) () (by decide) (by decide) (by decide)
    (by decide)).1

/-- C19 (empty table).  When `gNumSymbols` is 0, `gNumSymbols - 1` computed on the
unsigned 64-bit `size` is `2^64 - 1`, which reaches the search as the signed
upper bound `-1`; the search then returns `-1` whatever the getter is, that is
without reading any table entry; `lookupSymbolByHash` returns null for every
hash, and `lookupSymbolFromDb` with `abort = false` returns 0 for every key,
without any strategy invocation. -/
theorem C19_empty_table :
    ((([] : List detail.SymbolEntry).length + 2 ^ 64 - 1) % 2 ^ 64 = 2 ^ 64 - 1) ∧
      toS32 ((([] : List detail.SymbolEntry).length + 2 ^ 64 - 1) % 2 ^ 64) = -1 ∧
      (∀ (getFunc : Nat → Nat) (h : Nat),
        hk.util.binarySearch getFunc 0
          (toS32 ((([] : List detail.SymbolEntry).length + 2 ^ 64 - 1) % 2 ^ 64)) h = -1) ∧
      (∀ h, detail.lookupSymbolByHash [] h = none) ∧
      ∀ (W : Type) (hashMurmur : String → Nat) (S : detail.Strategies W) (w : W)
        (symbol : detail.DestSymbol),
        lookupSymbolFromDb hashMurmur S [] w symbol false =
          ⟨[], Outcome.returned (0, [], w)⟩ := by
  have hs : toS32 ((([] : List detail.SymbolEntry).length + 2 ^ 64 - 1) % 2 ^ 64) = -1 := by
    decide
  refine ⟨by decide, hs, ?_, ?_, ?_⟩
  · intro getFunc h
    rw [hs]
    rfl
  · intro h
    exact detail.lookupSymbolByHash_absent [] h (by simp)
  · intro W hashMurmur S w symbol
    rw [lookupSymbolFromDb_miss hashMurmur S [] w symbol false
      (detail.lookupSymbolByHash_absent [] _ (by simp))]
    rfl

end hk.sail
